import Mathlib

/-!
Verification of the pairing-resolution pipeline of resplice_primers.py.

The program is embedded shallowly: primer records (rows of the BED table)
become a Lean structure, primer names become lists of characters, the
dataframe operations of the script (partition_by, is_duplicated,
with_row_count, left joins, concat, filters) become explicit list
operations, and every fallible dataframe operation (index assignment out
of range, concatenation of an empty frame list, a join failing its
many-to-one validation) returns in the Except monad.
-/

namespace Resplice

/-- One primer record: a row of the table built by main from the BED file,
after the ORIG_NAME and Amplicon columns are added.  The transient duped
column is recomputed inside dedup_primers before it is ever read and is
dropped before any later stage, so it is not part of the record. -/
structure PRecord where
  ref : List Char
  startPos : Int
  stopPos : Int
  origName : List Char
  name : List Char
  idx : Int
  sense : List Char
  gene : List Char
  amplicon : List Char
deriving DecidableEq, Repr

/-- One raw row of the input BED file: the seven unnamed columns. -/
structure RawRow where
  ref : List Char
  startPos : Int
  stopPos : Int
  name : List Char
  idx : Int
  sense : List Char
  gene : List Char
deriving DecidableEq, Repr

/-! ### Character-list utilities mirroring the Python string operations -/

/-- Python s.split(c) for a single-character separator: always returns at
least one piece; separators never appear inside pieces. -/
def splitOnChar (c : Char) : List Char → List (List Char)
  | [] => [[]]
  | x :: xs =>
    match splitOnChar c xs with
    | [] => [[]]
    | h :: t => if x = c then [] :: h :: t else (x :: h) :: t

/-- Python sep.join(pieces) for a list-of-chars separator. -/
def joinWith (sep : List Char) : List (List Char) → List Char
  | [] => []
  | [x] => x
  | x :: y :: t => x ++ sep ++ joinWith sep (y :: t)

/-- Last element of a list of pieces, with the empty piece as default. -/
def lastOf : List (List Char) → List Char
  | [] => []
  | [x] => x
  | _ :: y :: t => lastOf (y :: t)

/-- Python s.rsplit(sep, 1)[0] for the single character separator: the part
of s strictly before its last occurrence of the separator, or all of s when
the separator does not occur. -/
def rsplitBefore (c : Char) (s : List Char) : List Char :=
  if s.contains c then ((s.reverse.dropWhile (fun d => !(d == c))).tail).reverse
  else s

/-- One fueled pass of Python s.replace(pat, ""): remove every left-to-right
non-overlapping occurrence of the (nonempty) pattern. -/
def removeAllF (pat : List Char) : Nat → List Char → List Char
  | 0, s => s
  | _ + 1, [] => []
  | fuel + 1, x :: xs =>
    if pat.isPrefixOf (x :: xs) then removeAllF pat fuel ((x :: xs).drop pat.length)
    else x :: removeAllF pat fuel xs

/-- Python s.replace(pat, "") (equivalently the regex-free reading of the
polars str.replace_all calls, whose patterns contain no metacharacters). -/
def removeAll (pat s : List Char) : List Char :=
  removeAllF pat s.length s

/-- Decimal digits of a positive number, most significant first. -/
def natCharsAux : Nat → Nat → List Char
  | 0, _ => []
  | fuel + 1, n =>
    if n = 0 then [] else natCharsAux fuel (n / 10) ++ [Nat.digitChar (n % 10)]

/-- Decimal rendering of a natural number, as Python str/f-strings print it. -/
def natChars (n : Nat) : List Char :=
  if n = 0 then ['0'] else natCharsAux n n

/-- Substring test, Python's needle in haystack. -/
def hasSub (pat : List Char) : List Char → Bool
  | [] => pat.isPrefixOf []
  | x :: xs => pat.isPrefixOf (x :: xs) || hasSub pat xs

/-- Python enumerate(xs, start): pair every element with its index. -/
def enumF : Nat → List α → List (Nat × α)
  | _, [] => []
  | n, a :: as => (n, a) :: enumF (n + 1) as

/-- itertools.product for two lists: outer loop over the first list. -/
def pyProduct : List α → List β → List (α × β)
  | [], _ => []
  | x :: xs, ys => ys.map (fun y => (x, y)) ++ pyProduct xs ys

/-- Concatenation of a list of lists, pl.concat over frames. -/
def concatAll : List (List α) → List α
  | [] => []
  | x :: xs => x ++ concatAll xs

/-! ### The Partitioner (main's ingestion and partition_by) -/

/-- The orientation and splice-token string constants of the script. -/
def cLEFT : List Char := "_LEFT".data

def cRIGHT : List Char := "_RIGHT".data

def cSPLICE : List Char := "_splice".data

/-- Amplicon grouping key: NAME with _LEFT, _RIGHT, -2, -3, -4 removed, in
that order, exactly as main derives the Amplicon column. -/
def ampliconKey (nm : List Char) : List Char :=
  removeAll ("-4".data)
    (removeAll ("-3".data)
      (removeAll ("-2".data)
        (removeAll cRIGHT (removeAll cLEFT nm))))

/-- Ingestion of one raw row: ORIG_NAME is a copy of NAME, the Amplicon
column is derived from NAME. -/
def ingestRow (r : RawRow) : PRecord :=
  { ref := r.ref, startPos := r.startPos, stopPos := r.stopPos,
    origName := r.name, name := r.name, idx := r.idx, sense := r.sense,
    gene := r.gene, amplicon := r.name |> ampliconKey }

/-- First-seen order of the distinct values of a key over the rows. -/
def keyOrder (key : PRecord → List Char) (rows : List PRecord) : List (List Char) :=
  rows.foldl (fun acc r => if acc.contains (key r) then acc else acc ++ [key r]) []

/-- partition_by with maintain_order: one sub-frame per distinct key value,
keys in first-seen order, rows of each sub-frame in original order. -/
def partitionByKey (key : PRecord → List Char) (rows : List PRecord) : List (List PRecord) :=
  (keyOrder key rows).map (fun k => rows.filter (fun r => key r == k))

/-! ### The Deduplicator (dedup_primers) -/

/-- Names column of a frame. -/
def namesOf (g : List PRecord) : List (List Char) :=
  g.map (fun r => r.name)

/-- is_duplicated for one name within a frame: the name occurs on at least
two rows. -/
def isDupedIn (g : List PRecord) (nm : List Char) : Bool :=
  2 ≤ g.countP (fun r => r.name == nm)

/-- True in df.select(NAME).is_duplicated(): some row's name is repeated. -/
def hasDup (g : List PRecord) : Bool :=
  g.any (fun r => isDupedIn g r.name)

/-- First-seen order of the duped flag values within a frame. -/
def dupFlagOrder (g : List PRecord) : List Bool :=
  g.foldl (fun acc r => if acc.contains (isDupedIn g r.name) then acc
                        else acc ++ [isDupedIn g r.name]) []

/-- partition_by(duped) after overwriting duped with the per-frame
is_duplicated mask: at most two sub-frames, in first-seen flag order. -/
def dupPartition (g : List PRecord) : List (List PRecord) :=
  (dupFlagOrder g).map (fun b => g.filter (fun r => isDupedIn g r.name == b))

/-- with_row_count(offset=1) followed by the NAME-dash-row_nr rewrite:
each record of the frame gets the 1-based row number of the whole frame
appended to its name. -/
def renameDuped (p : List PRecord) : List PRecord :=
  (enumF 1 p).map (fun kr => { kr.2 with name := kr.2.name ++ '-' :: natChars kr.1 })

/-- Body of the duplicate branch for one frame: partition by the duped
flag, rename the sub-frame whose flag is true, and concatenate the
sub-frames back in partition order. -/
def dedupFrame (g : List PRecord) : List PRecord :=
  concatAll ((dupPartition g).map
    (fun p => if p.any (fun r => isDupedIn g r.name) then renameDuped p else p))

/-- The loop of dedup_primers over the caller's list, which it mutates in
place.  The write-back index is the leftover inner loop variable, the index
of the last sub-frame of the duped partition, so the rewritten frame lands
at list index 0 or 1 regardless of which frame produced it; when that index
is outside the list, Python raises IndexError, modelled as Except.error. -/
def dedupGo : Nat → Nat → List (List PRecord) → Except Unit (List (List PRecord))
  | 0, _, bed => .ok bed
  | fuel + 1, i, bed =>
    match bed[i]? with
    | none => .ok bed
    | some df =>
      if hasDup df then
        let j := (dupPartition df).length - 1
        if j < bed.length then dedupGo fuel (i + 1) (bed.set j (dedupFrame df))
        else .error ()
      else dedupGo fuel (i + 1) bed

/-- The state of the caller's partitioned list after dedup_primers returns
(the function mutates its argument in place). -/
def dedupMutated (bed : List (List PRecord)) : Except Unit (List (List PRecord)) :=
  dedupGo bed.length 0 bed

/-- dedup_primers: run the mutating loop, then concatenate the (mutated)
list, drop the duped column and re-partition by Amplicon.  pl.concat of an
empty frame list raises, modelled as Except.error. -/
def dedup_primers (bed : List (List PRecord)) : Except Unit (List (List PRecord)) :=
  match dedupMutated bed with
  | .error e => .error e
  | .ok bed' =>
    if bed'.isEmpty then .error ()
    else .ok (partitionByKey (fun r => r.amplicon) (concatAll bed'))

/-! ### The Pairing Resolver (resolve_primer_names and resplice_primers) -/

/-- Base of a primer name for splice naming: drop the final
underscore-separated token, then drop everything from the last dash on. -/
def spliceBase (nm : List Char) : List Char :=
  rsplitBefore '-' (joinWith ['_'] ((splitOnChar '_' nm).dropLast))

/-- Final underscore-separated token of a primer name. -/
def lastTok (nm : List Char) : List Char :=
  lastOf (splitOnChar '_' nm)

/-- Synthesized splice name for one primer of the pairing with 1-based
index k: base, then _splice, then the index, then an underscore and the
original trailing token. -/
def spliceName (nm : List Char) (k : Nat) : List Char :=
  spliceBase nm ++ cSPLICE ++ natChars k ++ '_' :: lastTok nm

/-- resolve_primer_names: the minority-outer majority-inner cross product,
the join-key list (all pair firsts then all pair seconds) and the parallel
list of synthesized names in the same concatenated order. -/
def resolve_primer_names (to_combine combine_to : List (List Char)) :
    List (List Char) × List (List Char) :=
  let primer_pairs := pyProduct to_combine combine_to
  let primers_to_join := primer_pairs.map (fun pr => pr.1) ++
    primer_pairs.map (fun pr => pr.2)
  let new_primer_names :=
    (enumF 0 primer_pairs).map (fun ipr => spliceName ipr.2.1 (ipr.1 + 1)) ++
    (enumF 0 primer_pairs).map (fun ipr => spliceName ipr.2.2 (ipr.1 + 1))
  (primers_to_join, new_primer_names)

/-- Forward primer names of a frame: names containing _LEFT, in row order. -/
def fwdPrimers (g : List PRecord) : List (List Char) :=
  (namesOf g).filter (fun nm => hasSub cLEFT nm)

/-- Reverse primer names of a frame: names containing _RIGHT, in row order. -/
def revPrimers (g : List PRecord) : List (List Char) :=
  (namesOf g).filter (fun nm => hasSub cRIGHT nm)

/-- The left join on NAME followed by the positional replacement of NAME by
the synthesized names: one output record per join key, carrying every
column of the matched record except NAME.  Every join key is drawn from the
frame's NAME column, so the lookup always succeeds. -/
def joinRows (g : List PRecord) (ks ns : List (List Char)) : List PRecord :=
  (ks.zip ns).filterMap
    (fun knn => (g.find? (fun r => r.name == knn.1)).map
      (fun r => { r with name := knn.2 }))

def resolvedRecords (g : List PRecord) (to_combine combine_to : List (List Char)) :
    List PRecord :=
  joinRows g (resolve_primer_names to_combine combine_to).1
    (resolve_primer_names to_combine combine_to).2

/-- Processing of a single group by the resplice_primers loop body.
ok none encodes the bare break on an odd group with equally many forward
and reverse primers; Except.error encodes the ComputeError of the join's
many-to-one validation when the frame's names are not unique. -/
def respliceGroup (g : List PRecord) : Except Unit (Option (List PRecord)) :=
  if g.length % 2 ≠ 0 then
    if (fwdPrimers g).length > (revPrimers g).length then
      if (namesOf g).Nodup then
        .ok (some (resolvedRecords g (revPrimers g) (fwdPrimers g)))
      else .error ()
    else if (fwdPrimers g).length < (revPrimers g).length then
      if (namesOf g).Nodup then
        .ok (some (resolvedRecords g (fwdPrimers g) (revPrimers g)))
      else .error ()
    else .ok none
  else .ok (some g)

/-- Does the loop body hit the bare break on this group? -/
def groupStops (g : List PRecord) : Bool :=
  decide (g.length % 2 ≠ 0) &&
    (fwdPrimers g).length == (revPrimers g).length

/-- resplice_primers: fold the loop body over the groups; the bare break
abandons the current group and every later one, returning only what was
accumulated so far. -/
def resplice_primers : List (List PRecord) → Except Unit (List (List PRecord))
  | [] => .ok []
  | g :: rest =>
    match respliceGroup g with
    | .error e => .error e
    | .ok none => .ok []
    | .ok (some out) =>
      match resplice_primers rest with
      | .error e => .error e
      | .ok outs => .ok (out :: outs)

/-! ### The Finalizer (finalize_primer_pairings) and main -/

/-- Keep a frame iff it has at least one _LEFT name and one _RIGHT name. -/
def keepGroup (g : List PRecord) : Bool :=
  ((namesOf g).filter (fun nm => hasSub cLEFT nm)).length > 0 &&
    ((namesOf g).filter (fun nm => hasSub cRIGHT nm)).length > 0

/-- The kept frames, in order. -/
def finalKept (mf : List (List PRecord)) : List (List PRecord) :=
  mf.filter keepGroup

/-- finalize_primer_pairings: filter, then concatenate; pl.concat of an
empty list of kept frames raises, modelled as Except.error. -/
def finalize_primer_pairings (mf : List (List PRecord)) : Except Unit (List PRecord) :=
  if (finalKept mf).isEmpty then .error ()
  else .ok (concatAll (finalKept mf))

/-- Row order of the final sort: ascending by start position, then stop. -/
def rowLE (a b : PRecord) : Bool :=
  a.startPos < b.startPos || (a.startPos == b.startPos && a.stopPos ≤ b.stopPos)

/-- Insertion into a sorted run. -/
def insertRow (a : PRecord) : List PRecord → List PRecord
  | [] => [a]
  | b :: bs => if rowLE a b then a :: b :: bs else b :: insertRow a bs

/-- The final sort by start and stop position. -/
def sortRows : List PRecord → List PRecord
  | [] => []
  | a :: as => insertRow a (sortRows as)

/-- main's data path: ingest the raw rows, partition by Amplicon, then run
the Deduplicator, the Pairing Resolver and the Finalizer, and sort. -/
def pipelineRun (raws : List RawRow) : Except Unit (List PRecord) :=
  match dedup_primers (partitionByKey (fun r => r.amplicon) (raws.map ingestRow)) with
  | .error e => .error e
  | .ok dd =>
    match resplice_primers dd with
    | .error e => .error e
    | .ok mf =>
      match finalize_primer_pairings mf with
      | .error e => .error e
      | .ok fin => .ok (sortRows fin)

end Resplice

namespace Resplice

/-! ### Lemmas about the character-list utilities -/

theorem hasSub_iff {pat s : List Char} : hasSub pat s = true ↔ pat <:+: s := by
  induction s with
  | nil =>
    simp [hasSub, List.infix_nil, List.isPrefixOf_iff_prefix, List.prefix_nil]
  | cons x xs ih =>
    simp [hasSub, List.infix_cons_iff, List.isPrefixOf_iff_prefix, ih]

theorem splitOnChar_ne_nil (c : Char) (s : List Char) : splitOnChar c s ≠ [] := by
  cases s with
  | nil => simp [splitOnChar]
  | cons x xs =>
    simp only [splitOnChar]
    cases h : splitOnChar c xs with
    | nil => simp
    | cons hd tl => by_cases hx : x = c <;> simp [hx]

theorem splitOnChar_sep_not_mem {c : Char} {s : List Char} :
    ∀ t ∈ splitOnChar c s, c ∉ t := by
  induction s with
  | nil =>
    intro t ht
    simp [splitOnChar] at ht
    simp [ht]
  | cons x xs ih =>
    intro t ht
    simp only [splitOnChar] at ht
    rcases h : splitOnChar c xs with _ | ⟨hd, tl⟩
    · exact absurd h (splitOnChar_ne_nil c xs)
    · rw [h] at ht
      by_cases hx : x = c
      · simp [hx] at ht
        rcases ht with ht | ht | ht
        · simp [ht]
        · exact ht ▸ ih hd (h ▸ List.mem_cons_self hd tl)
        · exact ih t (h ▸ List.mem_cons_of_mem hd ht)
      · simp [hx] at ht
        rcases ht with ht | ht
        · subst ht
          intro hc
          rcases List.mem_cons.mp hc with hc | hc
          · exact hx hc.symm
          · exact ih hd (h ▸ List.mem_cons_self hd tl) hc
        · exact ih t (h ▸ List.mem_cons_of_mem hd ht)

theorem joinWith_cons_head (sep : List Char) (x : Char) (hd : List Char)
    (tl : List (List Char)) :
    joinWith sep ((x :: hd) :: tl) = x :: joinWith sep (hd :: tl) := by
  cases tl with
  | nil => rfl
  | cons y t => simp [joinWith]

theorem joinWith_splitOnChar (c : Char) (s : List Char) :
    joinWith [c] (splitOnChar c s) = s := by
  induction s with
  | nil => rfl
  | cons x xs ih =>
    simp only [splitOnChar]
    rcases h : splitOnChar c xs with _ | ⟨hd, tl⟩
    · exact absurd h (splitOnChar_ne_nil c xs)
    · rw [h] at ih
      by_cases hx : x = c
      · subst hx
        simp only [if_pos rfl, joinWith]
        simpa using ih
      · show joinWith [c] (if x = c then [] :: hd :: tl else (x :: hd) :: tl) = x :: xs
        rw [if_neg hx, joinWith_cons_head, ih]

theorem splitOnChar_length_ge_two {c : Char} {s : List Char} (hc : c ∈ s) :
    2 ≤ (splitOnChar c s).length := by
  induction s with
  | nil => cases hc
  | cons x xs ih =>
    simp only [splitOnChar]
    rcases h : splitOnChar c xs with _ | ⟨hd, tl⟩
    · exact absurd h (splitOnChar_ne_nil c xs)
    · by_cases hx : x = c
      · simp [hx]
      · rcases List.mem_cons.mp hc with hc | hc
        · exact absurd hc.symm hx
        · have h2 := ih hc
          rw [h] at h2
          show 2 ≤ (if x = c then ([] : List Char) :: hd :: tl else (x :: hd) :: tl).length
          rw [if_neg hx]
          simp at h2 ⊢
          omega

theorem lastOf_mem {l : List (List Char)} (h : l ≠ []) : lastOf l ∈ l := by
  induction l with
  | nil => exact absurd rfl h
  | cons x xs ih =>
    cases xs with
    | nil => simp [lastOf]
    | cons y t => exact List.mem_cons_of_mem x (ih (by simp))

theorem dropLast_append_lastOf {l : List (List Char)} (h : l ≠ []) :
    l.dropLast ++ [lastOf l] = l := by
  induction l with
  | nil => exact absurd rfl h
  | cons x xs ih =>
    cases xs with
    | nil => simp [lastOf]
    | cons y t =>
      simp only [List.dropLast_cons₂, lastOf, List.cons_append]
      rw [ih (by simp)]

theorem joinWith_append_last (sep last : List Char) :
    ∀ (init : List (List Char)), init ≠ [] →
      joinWith sep (init ++ [last]) = joinWith sep init ++ sep ++ last := by
  intro init
  induction init with
  | nil => intro h; exact absurd rfl h
  | cons x xs ih =>
    intro _
    cases xs with
    | nil => simp [joinWith]
    | cons y t =>
      show x ++ sep ++ joinWith sep ((y :: t) ++ [last]) =
        (x ++ sep ++ joinWith sep (y :: t)) ++ sep ++ last
      rw [ih (by simp)]
      simp [List.append_assoc]

end Resplice

namespace Resplice

/-- A name containing an underscore splits as the joined initial tokens, an
underscore, and the final token. -/
theorem name_decomp {nm : List Char} (h : '_' ∈ nm) :
    nm = joinWith ['_'] ((splitOnChar '_' nm).dropLast) ++ '_' :: lastTok nm := by
  have hne := splitOnChar_ne_nil '_' nm
  have hlen := splitOnChar_length_ge_two h
  have hsplit := dropLast_append_lastOf hne
  have hdne : (splitOnChar '_' nm).dropLast ≠ [] := by
    intro hd
    have h3 := congrArg List.length hd
    rw [List.length_dropLast, List.length_nil] at h3
    omega
  calc nm = joinWith ['_'] (splitOnChar '_' nm) := (joinWith_splitOnChar '_' nm).symm
    _ = joinWith ['_'] ((splitOnChar '_' nm).dropLast ++ [lastTok nm]) := by
        rw [lastTok, hsplit]
    _ = joinWith ['_'] ((splitOnChar '_' nm).dropLast) ++ ['_'] ++ lastTok nm := by
        rw [joinWith_append_last _ _ _ hdne]
    _ = joinWith ['_'] ((splitOnChar '_' nm).dropLast) ++ '_' :: lastTok nm := by
        simp

theorem lastTok_sep_not_mem (nm : List Char) : '_' ∉ lastTok nm :=
  splitOnChar_sep_not_mem (lastOf (splitOnChar '_' nm))
    (lastOf_mem (splitOnChar_ne_nil '_' nm))

theorem dropWhile_append_of_all {p : Char → Bool} {u : List Char} (v : List Char)
    (hu : ∀ x ∈ u, p x = true) :
    List.dropWhile p (u ++ v) = List.dropWhile p v := by
  induction u with
  | nil => rfl
  | cons x xs ih =>
    have hx := hu x (List.mem_cons_self x xs)
    simp only [List.cons_append, List.dropWhile_cons, hx, if_pos]
    exact ih (fun y hy => hu y (List.mem_cons_of_mem x hy))

/-- rsplitBefore at a character that occurs: everything before the last
occurrence. -/
theorem rsplitBefore_eq {c : Char} {a b : List Char} (hb : c ∉ b) :
    rsplitBefore c (a ++ c :: b) = a := by
  have hc : (a ++ c :: b).contains c = true := by
    simp
  rw [rsplitBefore, if_pos hc]
  have hrev : (a ++ c :: b).reverse = b.reverse ++ c :: a.reverse := by
    simp
  rw [hrev, dropWhile_append_of_all (c :: a.reverse)
    (by intro x hx; simp; intro hxc; exact hb (hxc ▸ (List.mem_reverse.mp hx)))]
  simp [List.dropWhile_cons]

/-- rsplitBefore at a character that does not occur: the whole string. -/
theorem rsplitBefore_eq_self {c : Char} {s : List Char} (h : c ∉ s) :
    rsplitBefore c s = s := by
  rw [rsplitBefore, if_neg]
  simp [h]

/-- rsplitBefore yields a prefix of its argument. -/
theorem rsplitBefore_isPre (c : Char) (s : List Char) : rsplitBefore c s <+: s := by
  rw [rsplitBefore]
  by_cases hc : s.contains c
  · rw [if_pos hc]
    have h1 : List.dropWhile (fun d => !(d == c)) s.reverse <:+ s.reverse :=
      List.dropWhile_suffix _
    have h2 : (List.dropWhile (fun d => !(d == c)) s.reverse).tail <:+ s.reverse := by
      rcases hd : List.dropWhile (fun d => !(d == c)) s.reverse with _ | ⟨x, t⟩
      · simp
      · rw [hd] at h1
        exact (List.suffix_cons x t).trans h1
    have := List.reverse_prefix.mpr h2
    simpa using this
  · rw [if_neg hc]

/-- The splice base of a name is one of its prefixes. -/
theorem spliceBase_isPre (nm : List Char) : spliceBase nm <+: nm := by
  by_cases h : '_' ∈ nm
  · have hd := name_decomp h
    refine (rsplitBefore_isPre '-' _).trans ⟨'_' :: lastTok nm, ?_⟩
    exact hd.symm
  · have h1 : splitOnChar '_' nm = [nm] := by
      have hj := joinWith_splitOnChar '_' nm
      rcases hs : splitOnChar '_' nm with _ | ⟨hd, tl⟩
      · exact absurd hs (splitOnChar_ne_nil '_' nm)
      · cases tl with
        | nil => rw [hs] at hj; simp [joinWith] at hj; rw [hj]
        | cons y t =>
          exfalso
          apply h
          rw [hs] at hj
          have : '_' ∈ joinWith ['_'] (hd :: y :: t) := by
            simp [joinWith]
          rw [hj] at this
          exact this
    rw [spliceBase, h1]
    have h2 : joinWith ['_'] ([nm].dropLast) = [] := rfl
    rw [h2, rsplitBefore_eq_self (by simp)]
    exact List.nil_prefix

/-! ### Decimal rendering lemmas -/

/-- Numeric value of a digit character. -/
def chVal (ch : Char) : Nat := ch.toNat - 48

/-- Value of a digit string, most significant digit first. -/
def digitsVal (l : List Char) : Nat := l.foldl (fun a ch => 10 * a + chVal ch) 0

theorem digitsVal_append_digit (xs : List Char) (ch : Char) :
    digitsVal (xs ++ [ch]) = 10 * digitsVal xs + chVal ch := by
  simp [digitsVal, List.foldl_append]

theorem chVal_digitChar : ∀ d, d < 10 → chVal (Nat.digitChar d) = d := by decide

theorem natCharsAux_val : ∀ fuel n, n ≤ fuel → digitsVal (natCharsAux fuel n) = n := by
  intro fuel
  induction fuel with
  | zero => intro n hn; interval_cases n; rfl
  | succ f ih =>
    intro n hn
    by_cases h0 : n = 0
    · simp [natCharsAux, h0, digitsVal]
    · rw [natCharsAux, if_neg h0, digitsVal_append_digit,
        ih (n / 10) (by omega), chVal_digitChar (n % 10) (Nat.mod_lt n (by omega))]
      omega

theorem natChars_val (n : Nat) : digitsVal (natChars n) = n := by
  by_cases h0 : n = 0
  · simp [natChars, h0]
    rfl
  · rw [natChars, if_neg h0]
    exact natCharsAux_val n n le_rfl

theorem natChars_inj {a b : Nat} (h : natChars a = natChars b) : a = b := by
  have := congrArg digitsVal h
  rwa [natChars_val, natChars_val] at this

theorem natCharsAux_digits : ∀ fuel n, ∀ ch ∈ natCharsAux fuel n,
    ∃ d, d < 10 ∧ ch = Nat.digitChar d := by
  intro fuel
  induction fuel with
  | zero => intro n ch hch; simp [natCharsAux] at hch
  | succ f ih =>
    intro n ch hch
    by_cases h0 : n = 0
    · simp [natCharsAux, h0] at hch
    · rw [natCharsAux, if_neg h0] at hch
      rcases List.mem_append.mp hch with hch | hch
      · exact ih (n / 10) ch hch
      · simp at hch
        exact ⟨n % 10, Nat.mod_lt n (by omega), hch⟩

theorem natChars_digits {n : Nat} : ∀ ch ∈ natChars n, ∃ d, d < 10 ∧ ch = Nat.digitChar d := by
  intro ch hch
  by_cases h0 : n = 0
  · simp [natChars, h0] at hch
    exact ⟨0, by omega, by simp [hch]; rfl⟩
  · rw [natChars, if_neg h0] at hch
    exact natCharsAux_digits n n ch hch

theorem digitChar_ne_us : ∀ d, d < 10 → Nat.digitChar d ≠ '_' := by decide

theorem digitChar_ne_dash : ∀ d, d < 10 → Nat.digitChar d ≠ '-' := by decide

theorem natChars_us_not_mem (n : Nat) : '_' ∉ natChars n := by
  intro h
  rcases natChars_digits _ h with ⟨d, hd, he⟩
  exact digitChar_ne_us d hd he.symm

theorem natChars_dash_not_mem (n : Nat) : '-' ∉ natChars n := by
  intro h
  rcases natChars_digits _ h with ⟨d, hd, he⟩
  exact digitChar_ne_dash d hd he.symm

theorem natChars_ne_nil (n : Nat) : natChars n ≠ [] := by
  by_cases h0 : n = 0
  · simp [natChars, h0]
  · rw [natChars, if_neg h0]
    cases n with
    | zero => exact absurd rfl h0
    | succ m =>
      rw [natCharsAux, if_neg h0]
      simp

/-- Two decompositions of a list around a distinguished element meet in one
of three ways: at the same spot, or one strictly inside the other side. -/
theorem eqAppendCons {α : Type} {u : α} :
    ∀ {x : List α} {B z R : List α}, x ++ u :: z = B ++ u :: R →
      (x = B ∧ z = R) ∨ (∃ w, B = x ++ u :: w ∧ z = w ++ u :: R) ∨
        (∃ w, x = B ++ u :: w ∧ R = w ++ u :: z) := by
  intro x
  induction x with
  | nil =>
    intro B z R h
    cases B with
    | nil =>
      simp at h
      exact .inl ⟨rfl, h⟩
    | cons b B' =>
      simp at h
      exact .inr (.inl ⟨B', by simp [h.1], h.2⟩)
  | cons a x' ih =>
    intro B z R h
    cases B with
    | nil =>
      simp at h
      exact .inr (.inr ⟨x', by simp [h.1], h.2.symm⟩)
    | cons b B' =>
      simp at h
      rcases ih h.2 with ⟨h1, h2⟩ | ⟨w, h1, h2⟩ | ⟨w, h1, h2⟩
      · exact .inl ⟨by rw [h.1, h1], h2⟩
      · exact .inr (.inl ⟨w, by simp [h.1, h1], h2⟩)
      · exact .inr (.inr ⟨w, by simp [h.1, h1], h2⟩)

/-- Cancellation around a distinguished element that appears in neither of
the left parts. -/
theorem eqAppendCons_free {α : Type} {u : α} {x B z R : List α}
    (h : x ++ u :: z = B ++ u :: R) (hx : u ∉ x) (hB : u ∉ B) :
    x = B ∧ z = R := by
  rcases eqAppendCons h with h' | ⟨w, h1, _⟩ | ⟨w, h1, _⟩
  · exact h'
  · exact absurd (h1 ▸ List.mem_append_right x (List.mem_cons_self u w)) hB
  · exact absurd (h1 ▸ List.mem_append_right B (List.mem_cons_self u w)) hx

end Resplice

namespace Resplice

/-! ### The splice-token occurrence analysis -/

/-- Orientation tails and the splice word without their leading underscore. -/
def sSPLICE : List Char := "splice".data

def oLEFT : List Char := "LEFT".data

def oRIGHT : List Char := "RIGHT".data

theorem cSPLICE_eq : cSPLICE = '_' :: sSPLICE := rfl

theorem cLEFT_eq : cLEFT = '_' :: oLEFT := rfl

theorem cRIGHT_eq : cRIGHT = '_' :: oRIGHT := rfl

theorem us_not_mem_sSPLICE : '_' ∉ sSPLICE := by decide

/-- The token identifying pairing j in a synthesized name. -/
def spliceTok (j : Nat) : List Char := cSPLICE ++ natChars j ++ ['_']

theorem spliceName_decomp (nm : List Char) (k : Nat) :
    spliceName nm k =
      spliceBase nm ++ '_' :: (sSPLICE ++ (natChars k ++ '_' :: lastTok nm)) := by
  rw [spliceName, cSPLICE_eq]
  simp [List.append_assoc]

/-- A synthesized name contains the splice token of exactly its own pairing
index, provided the original name contains no _splice of its own. -/
theorem spliceTok_iff {nm : List Char} (hsp : ¬ cSPLICE <:+: nm)
    {i j : Nat} : spliceTok j <:+: spliceName nm i ↔ j = i := by
  have hB : ¬ cSPLICE <:+: spliceBase nm := fun hc =>
    hsp (hc.trans ((spliceBase_isPre nm).isInfix))
  constructor
  · intro h
    rcases h with ⟨x, y, hxy⟩
    have hre : x ++ '_' :: (sSPLICE ++ (natChars j ++ '_' :: y)) =
        spliceBase nm ++ '_' :: (sSPLICE ++ (natChars i ++ '_' :: lastTok nm)) := by
      calc x ++ '_' :: (sSPLICE ++ (natChars j ++ '_' :: y))
          = x ++ spliceTok j ++ y := by
            simp [spliceTok, cSPLICE_eq, List.append_assoc]
        _ = spliceName nm i := hxy
        _ = _ := spliceName_decomp nm i
    rcases eqAppendCons hre with ⟨_, h2⟩ | ⟨w, h1, h2⟩ | ⟨w, _, h2⟩
    · have h3 := List.append_cancel_left h2
      have h4 := eqAppendCons_free h3 (natChars_us_not_mem j) (natChars_us_not_mem i)
      exact natChars_inj h4.1
    · exfalso
      have h2' : (sSPLICE ++ natChars j) ++ '_' :: y =
          w ++ '_' :: (sSPLICE ++ (natChars i ++ '_' :: lastTok nm)) := by
        rw [← h2]
        simp [List.append_assoc]
      rcases eqAppendCons h2' with ⟨h3, _⟩ | ⟨v, h3, _⟩ | ⟨v, h3, _⟩
      · apply hB
        rw [h1, ← h3, cSPLICE_eq]
        exact ⟨x, natChars j, by simp [List.append_assoc]⟩
      · apply hB
        rw [h1, h3, cSPLICE_eq]
        exact ⟨x, natChars j ++ '_' :: v, by simp [List.append_assoc]⟩
      · have h5 : '_' ∈ sSPLICE ++ natChars j :=
          h3 ▸ List.mem_append_right w (List.mem_cons_self _ _)
        rcases List.mem_append.mp h5 with h6 | h6
        · exact us_not_mem_sSPLICE h6
        · exact natChars_us_not_mem j h6
    · exfalso
      have h2' : (sSPLICE ++ natChars i) ++ '_' :: lastTok nm =
          w ++ '_' :: (sSPLICE ++ (natChars j ++ '_' :: y)) := by
        rw [← h2]
        simp [List.append_assoc]
      rcases eqAppendCons h2' with ⟨_, h4⟩ | ⟨v, _, h4⟩ | ⟨v, h3, _⟩
      · apply lastTok_sep_not_mem nm
        rw [h4]
        exact List.mem_append_right _ (List.mem_append_right _ (List.mem_cons_self _ _))
      · apply lastTok_sep_not_mem nm
        rw [h4]
        exact List.mem_append_right _ (List.mem_cons_self _ _)
      · have h5 : '_' ∈ sSPLICE ++ natChars i :=
          h3 ▸ List.mem_append_right w (List.mem_cons_self _ _)
        rcases List.mem_append.mp h5 with h6 | h6
        · exact us_not_mem_sSPLICE h6
        · exact natChars_us_not_mem i h6
  · rintro rfl
    exact ⟨spliceBase nm, lastTok nm,
      by rw [spliceName]; simp [spliceTok, List.append_assoc]⟩

/-- A synthesized name keeps the orientation mark of its final token. -/
theorem ori_mem_spliceName {nm ori : List Char} (hlast : ori <+: lastTok nm)
    (i : Nat) : ('_' :: ori) <:+: spliceName nm i := by
  rcases hlast with ⟨t, ht⟩
  refine ⟨spliceBase nm ++ cSPLICE ++ natChars i, t, ?_⟩
  rw [spliceName, ← ht]
  simp [List.append_assoc]

/-- A synthesized name does not acquire the opposite orientation mark. -/
theorem oppo_not_mem_spliceName {nm ori oppo : List Char}
    (hopp : ¬ ('_' :: oppo) <:+: nm)
    (hlast : ori <+: lastTok nm) (hori_ne : ori ≠ [])
    (hoppo_ne : oppo ≠ []) (hoppo_us : '_' ∉ oppo)
    (hhead_s : oppo.head? ≠ some 's') (hhead_ori : oppo.head? ≠ ori.head?)
    (i : Nat) : ¬ ('_' :: oppo) <:+: spliceName nm i := by
  have hoppoB : ¬ ('_' :: oppo) <:+: spliceBase nm := fun hc =>
    hopp (hc.trans ((spliceBase_isPre nm).isInfix))
  intro h
  rcases h with ⟨x, y, hxy⟩
  have hre : x ++ '_' :: (oppo ++ y) =
      spliceBase nm ++ '_' :: (sSPLICE ++ (natChars i ++ '_' :: lastTok nm)) := by
    calc x ++ '_' :: (oppo ++ y)
        = x ++ ('_' :: oppo) ++ y := by simp
      _ = spliceName nm i := hxy
      _ = _ := spliceName_decomp nm i
  rcases eqAppendCons hre with ⟨_, h2⟩ | ⟨w, h1, h2⟩ | ⟨w, _, h2⟩
  · rcases oppo with _ | ⟨b, obs⟩
    · exact hoppo_ne rfl
    · have : b = 's' := by
        have := congrArg List.head? h2
        simpa [sSPLICE] using this
      exact hhead_s (by simp [this])
  · rcases List.append_eq_append_iff.mp h2 with ⟨a', ha1, _⟩ | ⟨c', hc1, hc2⟩
    · exact hoppoB ⟨x, a', by rw [h1, ha1]; simp [List.append_assoc]⟩
    · rcases c' with _ | ⟨ch, c''⟩
      · simp at hc1
        exact hoppoB ⟨x, [], by rw [h1, hc1]; simp⟩
      · have hch : ch = '_' := by
          have := congrArg List.head? hc2
          simpa using this.symm
        apply hoppo_us
        rw [hc1, hch]
        exact List.mem_append_right w (List.mem_cons_self _ _)
  · have h2' : (sSPLICE ++ natChars i) ++ '_' :: lastTok nm =
        w ++ '_' :: (oppo ++ y) := by
      rw [← h2]
      simp [List.append_assoc]
    rcases eqAppendCons h2' with ⟨_, h4⟩ | ⟨v, _, h4⟩ | ⟨v, h3, _⟩
    · rcases oppo with _ | ⟨b, obs⟩
      · exact hoppo_ne rfl
      · rcases ori with _ | ⟨a, oas⟩
        · exact hori_ne rfl
        · rcases hlast with ⟨t, ht⟩
          have hab : a = b := by
            have := congrArg List.head? (ht.trans h4)
            simpa using this
          exact hhead_ori (by simp [hab])
    · apply lastTok_sep_not_mem nm
      rw [h4]
      exact List.mem_append_right _ (List.mem_cons_self _ _)
    · have h5 : '_' ∈ sSPLICE ++ natChars i :=
        h3 ▸ List.mem_append_right w (List.mem_cons_self _ _)
      rcases List.mem_append.mp h5 with h6 | h6
      · exact us_not_mem_sSPLICE h6
      · exact natChars_us_not_mem i h6

end Resplice

namespace Resplice

/-! ### Canonical primer names and their synthesized forms -/

/-- A primer name in the shape the spec's data model describes: it has an
underscore, its final underscore-separated token starts with its orientation
mark, it does not contain the opposite orientation substring, and it does
not already contain a _splice token. -/
def canonicalFor (ori oppo : List Char) (nm : List Char) : Prop :=
  '_' ∈ nm ∧ ori <+: lastTok nm ∧ ¬ (('_' :: oppo) <:+: nm) ∧ ¬ (cSPLICE <:+: nm)

instance (ori oppo nm : List Char) : Decidable (canonicalFor ori oppo nm) := by
  unfold canonicalFor
  infer_instance

theorem canonical_self_mem {ori oppo nm : List Char}
    (h : canonicalFor ori oppo nm) : ('_' :: ori) <:+: nm := by
  rcases h with ⟨hus, ⟨t, ht⟩, -, -⟩
  refine ⟨joinWith ['_'] ((splitOnChar '_' nm).dropLast), t, ?_⟩
  conv_rhs => rw [name_decomp hus, ← ht]
  simp [List.append_assoc]

theorem ori_spliceName_true {ori oppo nm : List Char}
    (h : canonicalFor ori oppo nm) (k : Nat) :
    hasSub ('_' :: ori) (spliceName nm k) = true :=
  hasSub_iff.mpr (ori_mem_spliceName h.2.1 k)

theorem oppo_spliceName_false {ori oppo nm : List Char}
    (h : canonicalFor ori oppo nm) (hori_ne : ori ≠ [])
    (hoppo_ne : oppo ≠ []) (hoppo_us : '_' ∉ oppo)
    (hhead_s : oppo.head? ≠ some 's') (hhead_ori : oppo.head? ≠ ori.head?)
    (k : Nat) : hasSub ('_' :: oppo) (spliceName nm k) = false := by
  rw [Bool.eq_false_iff]
  intro ht
  exact oppo_not_mem_spliceName h.2.2.1 h.2.1 hori_ne hoppo_ne hoppo_us
    hhead_s hhead_ori k (hasSub_iff.mp ht)

/-! ### Counting splice tokens over the synthesized names of one side -/

theorem countP_sideNames_zero (sel : List Char × List Char → List Char)
    (q : List Char → Bool) :
    ∀ (prs : List (List Char × List Char)) (n j : Nat),
      (∀ pr ∈ prs, ¬ cSPLICE <:+: sel pr) →
      (j ≤ n ∨ n + prs.length < j) →
      ((enumF n prs).map (fun ipr => spliceName (sel ipr.2) (ipr.1 + 1))).countP
        (fun nm => q nm && hasSub (spliceTok j) nm) = 0 := by
  intro prs
  induction prs with
  | nil => intro n j _ _; rfl
  | cons pr rest ih =>
    intro n j hsp hj
    have htok : hasSub (spliceTok j) (spliceName (sel pr) (n + 1)) = false := by
      rw [Bool.eq_false_iff]
      intro ht
      have := (spliceTok_iff (hsp pr (List.mem_cons_self pr rest))).mp (hasSub_iff.mp ht)
      simp at hj
      omega
    simp only [enumF, List.map_cons, List.countP_cons, htok, Bool.and_false,
      if_neg (by simp : ¬ (false = true)), Nat.add_zero]
    refine ih (n + 1) j (fun p hp => hsp p (List.mem_cons_of_mem pr hp)) ?_
    simp at hj ⊢
    omega

theorem countP_sideNames_qfalse (sel : List Char × List Char → List Char)
    (q : List Char → Bool) :
    ∀ (prs : List (List Char × List Char)) (n j : Nat),
      (∀ pr ∈ prs, ∀ k, q (spliceName (sel pr) k) = false) →
      ((enumF n prs).map (fun ipr => spliceName (sel ipr.2) (ipr.1 + 1))).countP
        (fun nm => q nm && hasSub (spliceTok j) nm) = 0 := by
  intro prs
  induction prs with
  | nil => intro n j _; rfl
  | cons pr rest ih =>
    intro n j hq
    have hqh := hq pr (List.mem_cons_self pr rest) (n + 1)
    simp only [enumF, List.map_cons, List.countP_cons, hqh, Bool.false_and,
      if_neg (by simp : ¬ (false = true)), Nat.add_zero]
    exact ih (n + 1) j (fun p hp => hq p (List.mem_cons_of_mem pr hp))

theorem countP_sideNames_one (sel : List Char × List Char → List Char)
    (q : List Char → Bool) :
    ∀ (prs : List (List Char × List Char)) (n j : Nat),
      (∀ pr ∈ prs, ¬ cSPLICE <:+: sel pr) →
      (∀ pr ∈ prs, ∀ k, q (spliceName (sel pr) k) = true) →
      n < j → j ≤ n + prs.length →
      ((enumF n prs).map (fun ipr => spliceName (sel ipr.2) (ipr.1 + 1))).countP
        (fun nm => q nm && hasSub (spliceTok j) nm) = 1 := by
  intro prs
  induction prs with
  | nil => intro n j _ _ h1 h2; simp at h2; omega
  | cons pr rest ih =>
    intro n j hsp hq h1 h2
    by_cases hj : j = n + 1
    · have htok : hasSub (spliceTok j) (spliceName (sel pr) (n + 1)) = true := by
        rw [hasSub_iff, hj]
        exact (spliceTok_iff (hsp pr (List.mem_cons_self pr rest))).mpr rfl
      have hqh := hq pr (List.mem_cons_self pr rest) (n + 1)
      have hrest := countP_sideNames_zero sel q rest (n + 1) j
        (fun p hp => hsp p (List.mem_cons_of_mem pr hp)) (Or.inl (by omega))
      simp [enumF, List.countP_cons, hqh, htok, hrest]
    · have htok : hasSub (spliceTok j) (spliceName (sel pr) (n + 1)) = false := by
        rw [Bool.eq_false_iff]
        intro ht
        exact hj ((spliceTok_iff (hsp pr (List.mem_cons_self pr rest))).mp
          (hasSub_iff.mp ht))
      have hrest := ih (n + 1) j (fun p hp => hsp p (List.mem_cons_of_mem pr hp))
        (fun p hp => hq p (List.mem_cons_of_mem pr hp)) (by omega)
        (by simp at h2 ⊢; omega)
      simp only [enumF, List.map_cons, List.countP_cons, htok, Bool.and_false,
        if_neg (by simp : ¬ (false = true)), Nat.add_zero, hrest]

/-! ### Structure of the cross product and of the join -/

theorem pyProduct_length {α β : Type} (xs : List α) (ys : List β) :
    (pyProduct xs ys).length = xs.length * ys.length := by
  induction xs with
  | nil => simp [pyProduct]
  | cons x xs ih =>
    simp [pyProduct, ih]
    ring

theorem pyProduct_mem {α β : Type} {xs : List α} {ys : List β} {pr : α × β}
    (h : pr ∈ pyProduct xs ys) : pr.1 ∈ xs ∧ pr.2 ∈ ys := by
  induction xs with
  | nil => cases h
  | cons x xs ih =>
    rcases List.mem_append.mp h with h | h
    · rcases List.mem_map.mp h with ⟨y, hy, he⟩
      subst he
      exact ⟨List.mem_cons_self x xs, hy⟩
    · exact ⟨List.mem_cons_of_mem x (ih h).1, (ih h).2⟩

theorem enumF_length {α : Type} : ∀ (n : Nat) (l : List α), (enumF n l).length = l.length := by
  intro n l
  induction l generalizing n with
  | nil => rfl
  | cons a as ih => simp [enumF, ih]

end Resplice

namespace Resplice

/-! ### Structure of the resolver output -/

theorem resolve_fst (tc ct : List (List Char)) :
    (resolve_primer_names tc ct).1 =
      (pyProduct tc ct).map (fun pr => pr.1) ++
        (pyProduct tc ct).map (fun pr => pr.2) := rfl

theorem resolve_snd (tc ct : List (List Char)) :
    (resolve_primer_names tc ct).2 =
      (enumF 0 (pyProduct tc ct)).map (fun ipr => spliceName ipr.2.1 (ipr.1 + 1)) ++
        (enumF 0 (pyProduct tc ct)).map (fun ipr => spliceName ipr.2.2 (ipr.1 + 1)) := rfl

theorem resolve_fst_length (tc ct : List (List Char)) :
    (resolve_primer_names tc ct).1.length = 2 * (tc.length * ct.length) := by
  rw [resolve_fst]
  simp [pyProduct_length]
  omega

theorem resolve_snd_length (tc ct : List (List Char)) :
    (resolve_primer_names tc ct).2.length = 2 * (tc.length * ct.length) := by
  rw [resolve_snd]
  simp [enumF_length, pyProduct_length]
  omega

theorem mem_join_keys {tc ct : List (List Char)} {k : List Char}
    (h : k ∈ (resolve_primer_names tc ct).1) : k ∈ tc ∨ k ∈ ct := by
  rw [resolve_fst] at h
  rcases List.mem_append.mp h with h | h
  · rcases List.mem_map.mp h with ⟨pr, hpr, he⟩
    exact Or.inl (he ▸ (pyProduct_mem hpr).1)
  · rcases List.mem_map.mp h with ⟨pr, hpr, he⟩
    exact Or.inr (he ▸ (pyProduct_mem hpr).2)

theorem enumF_mem_snd {α : Type} {n : Nat} {l : List α} {ipr : Nat × α}
    (h : ipr ∈ enumF n l) : ipr.2 ∈ l := by
  induction l generalizing n with
  | nil => cases h
  | cons a as ih =>
    rcases List.mem_cons.mp h with h | h
    · subst h
      exact List.mem_cons_self _ _
    · exact List.mem_cons_of_mem a (ih h)

/-- The join of the resolver: when every key names a record of the frame,
the output names are exactly the synthesized names, and every output row is
a record of the frame with only its name replaced. -/
theorem joinRows_spec (g : List PRecord) :
    ∀ (ks ns : List (List Char)), ks.length = ns.length →
      (∀ k ∈ ks, ∃ r ∈ g, r.name = k) →
      namesOf (joinRows g ks ns) = ns ∧
        ∀ o ∈ joinRows g ks ns,
          ∃ s ∈ g, s.name ∈ ks ∧ o = { s with name := o.name } := by
  intro ks
  induction ks with
  | nil =>
    intro ns hlen _
    cases ns with
    | nil => exact ⟨rfl, by intro o ho; cases ho⟩
    | cons n ns' => simp at hlen
  | cons k ks' ih =>
    intro ns hlen hk
    cases ns with
    | nil => simp at hlen
    | cons n ns' =>
      obtain ⟨r, hr, hrn⟩ := hk k (List.mem_cons_self k ks')
      rcases hfs : g.find? (fun r => r.name == k) with _ | r'
      · exfalso
        have := List.find?_eq_none.mp hfs r hr
        simp [hrn] at this
      · have hr'g : r' ∈ g := List.mem_of_find?_eq_some hfs
        have hr'n : r'.name = k := by
          have := List.find?_some hfs
          simpa using this
        have hrec : joinRows g (k :: ks') (n :: ns') =
            { r' with name := n } :: joinRows g ks' ns' := by
          simp [joinRows, hfs]
        obtain ⟨ih1, ih2⟩ := ih ns' (by simpa using hlen)
          (fun k' hk' => hk k' (List.mem_cons_of_mem k hk'))
        constructor
        · rw [hrec]
          simp [namesOf] at ih1 ⊢
          exact ih1
        · intro o ho
          rw [hrec] at ho
          rcases List.mem_cons.mp ho with ho | ho
          · refine ⟨r', hr'g, by rw [hr'n]; exact List.mem_cons_self k ks', ?_⟩
            rw [ho]
          · obtain ⟨s, hs, hsk, hso⟩ := ih2 o ho
            exact ⟨s, hs, List.mem_cons_of_mem k hsk, hso⟩

/-- Branch lemmas for the resplice loop body. -/
theorem respliceGroup_even {g : List PRecord} (h : g.length % 2 = 0) :
    respliceGroup g = .ok (some g) := by
  unfold respliceGroup
  rw [if_neg (by omega)]

theorem respliceGroup_stop {g : List PRecord} (h1 : g.length % 2 = 1)
    (h2 : (fwdPrimers g).length = (revPrimers g).length) :
    respliceGroup g = .ok none := by
  unfold respliceGroup
  rw [if_pos (by omega), if_neg (by omega), if_neg (by omega)]

theorem respliceGroup_lt {g : List PRecord} (h1 : g.length % 2 = 1)
    (h2 : (fwdPrimers g).length < (revPrimers g).length)
    (h3 : (namesOf g).Nodup) :
    respliceGroup g = .ok (some (resolvedRecords g (fwdPrimers g) (revPrimers g))) := by
  unfold respliceGroup
  rw [if_pos (by omega), if_neg (by omega), if_pos h2, if_pos h3]

theorem respliceGroup_gt {g : List PRecord} (h1 : g.length % 2 = 1)
    (h2 : (revPrimers g).length < (fwdPrimers g).length)
    (h3 : (namesOf g).Nodup) :
    respliceGroup g = .ok (some (resolvedRecords g (revPrimers g) (fwdPrimers g))) := by
  unfold respliceGroup
  rw [if_pos (by omega), if_pos (by omega), if_pos h3]

theorem respliceGroup_eq_none {g : List PRecord}
    (h : respliceGroup g = .ok none) :
    g.length % 2 = 1 ∧ (fwdPrimers g).length = (revPrimers g).length := by
  unfold respliceGroup at h
  split_ifs at h <;> first
    | exact ⟨by omega, by omega⟩
    | simp_all

end Resplice

namespace Resplice

theorem resplice_cons (g : List PRecord) (rest : List (List PRecord)) :
    resplice_primers (g :: rest) =
      match respliceGroup g with
      | .error e => .error e
      | .ok none => .ok []
      | .ok (some out) =>
        match resplice_primers rest with
        | .error e => .error e
        | .ok outs => .ok (out :: outs) := rfl

/-- C1: in the Pairing Resolver, an odd group with equally many forward and
reverse primers triggers the bare break: that group and every group after
it are skipped, and the resolver's output is exactly what the groups before
it produced (in particular it has at most as many frames as there are
earlier groups). -/
theorem claim_C1 :
    ∀ (pre : List (List PRecord)) (out : List (List PRecord))
      (g : List PRecord) (post : List (List PRecord)),
      resplice_primers pre = .ok out →
      g.length % 2 = 1 →
      (fwdPrimers g).length = (revPrimers g).length →
      resplice_primers (pre ++ g :: post) = .ok out ∧ out.length ≤ pre.length := by
  intro pre
  induction pre with
  | nil =>
    intro out g post h1 h2 h3
    have h0 : ([] : List (List PRecord)) = out := by
      simpa [resplice_primers] using h1
    subst h0
    refine ⟨?_, by simp⟩
    show resplice_primers (g :: post) = .ok []
    rw [resplice_cons, respliceGroup_stop h2 h3]
  | cons p pre' ih =>
    intro out g post h1 h2 h3
    rw [resplice_cons] at h1
    cases hp : respliceGroup p with
    | error e =>
      rw [hp] at h1
      cases h1
    | ok o =>
      rw [hp] at h1
      cases o with
      | none =>
        simp at h1
        subst h1
        refine ⟨?_, by simp⟩
        show resplice_primers (p :: (pre' ++ g :: post)) = .ok []
        rw [resplice_cons, hp]
      | some od =>
        cases hr : resplice_primers pre' with
        | error e =>
          rw [hr] at h1
          cases h1
        | ok outs =>
          rw [hr] at h1
          simp at h1
          obtain ⟨ih1, ih2⟩ := ih outs g post hr h2 h3
          constructor
          · show resplice_primers (p :: (pre' ++ g :: post)) = .ok out
            rw [resplice_cons, hp, ih1, ← h1]
          · rw [← h1]
            simp
            omega

/-- C7: a group with an even record count passes through the Pairing
Resolver unchanged: appended after groups that neither fail nor hit the
degenerate break, it reappears verbatim at the end of the output. -/
theorem claim_C7 :
    ∀ (pre : List (List PRecord)) (out : List (List PRecord)) (g : List PRecord),
      resplice_primers pre = .ok out →
      (∀ p ∈ pre, groupStops p = false) →
      g.length % 2 = 0 →
      resplice_primers (pre ++ [g]) = .ok (out ++ [g]) := by
  intro pre
  induction pre with
  | nil =>
    intro out g h1 h2 h3
    have h0 : ([] : List (List PRecord)) = out := by
      simpa [resplice_primers] using h1
    subst h0
    show resplice_primers (g :: []) = .ok [g]
    rw [resplice_cons, respliceGroup_even h3]
    rfl
  | cons p pre' ih =>
    intro out g h1 h2 h3
    rw [resplice_cons] at h1
    cases hp : respliceGroup p with
    | error e =>
      rw [hp] at h1
      cases h1
    | ok o =>
      rw [hp] at h1
      cases o with
      | none =>
        exfalso
        obtain ⟨hs1, hs2⟩ := respliceGroup_eq_none hp
        have := h2 p (List.mem_cons_self p pre')
        rw [groupStops] at this
        simp [hs1, hs2] at this
      | some od =>
        cases hr : resplice_primers pre' with
        | error e =>
          rw [hr] at h1
          cases h1
        | ok outs =>
          rw [hr] at h1
          simp at h1
          have ihr := ih outs g hr (fun q hq => h2 q (List.mem_cons_of_mem p hq)) h3
          show resplice_primers (p :: (pre' ++ [g])) = .ok (out ++ [g])
          rw [resplice_cons, hp, ihr, ← h1]
          rfl

end Resplice

namespace Resplice

/-! ### Concrete records used by witnesses and counterexamples -/

def mkRec (nm : String) (st : Int) : PRecord :=
  { ref := "chr1".data, startPos := st, stopPos := st + 10,
    origName := nm.data, name := nm.data, idx := 1, sense := "+".data,
    gene := "g".data, amplicon := ampliconKey nm.data }

def wEven : List PRecord := [mkRec "AMP1_LEFT" 0, mkRec "AMP1_RIGHT" 50]

def wStop : List PRecord :=
  [mkRec "AMP2_LEFT" 100, mkRec "AMP2_RIGHT" 150, mkRec "AMP2X" 200]

def wPost : List PRecord := [mkRec "AMP3_LEFT" 300, mkRec "AMP3_RIGHT" 350]

def wOdd : List PRecord :=
  [mkRec "AMP1_LEFT" 0, mkRec "AMP1_RIGHT" 50, mkRec "AMP1_RIGHT-2" 60]

/-- Witness for C1 at a concrete input: one balanced group before the
degenerate group, one group after it; only the first group survives. -/
theorem claim_C1_witness :
    resplice_primers ([wEven] ++ wStop :: [wPost]) = .ok [wEven] ∧
      ([wEven] : List (List PRecord)).length ≤
        ([wEven] : List (List PRecord)).length :=
  claim_C1 [wEven] [wEven] wStop [wPost] (by rfl) (by rfl) (by rfl)

/-- Witness for C7 at a concrete input: an even group appended after a
clean prefix reappears unchanged. -/
theorem claim_C7_witness :
    resplice_primers ([wEven] ++ [wPost]) = .ok ([wEven] ++ [wPost]) :=
  claim_C7 [wEven] [wEven] wPost (by rfl) (by decide) (by rfl)

/-- Keys of the resolver's join always name records of the frame when both
orientation lists are drawn from the frame's names. -/
theorem keys_name_records {g : List PRecord} {tc ct : List (List Char)}
    (htc : ∀ k ∈ tc, k ∈ namesOf g) (hct : ∀ k ∈ ct, k ∈ namesOf g) :
    ∀ k ∈ (resolve_primer_names tc ct).1, ∃ r ∈ g, r.name = k := by
  intro k hk
  have hmem : k ∈ namesOf g := by
    rcases mem_join_keys hk with h | h
    · exact htc k h
    · exact hct k h
  rcases List.mem_map.mp hmem with ⟨r, hr, he⟩
  exact ⟨r, hr, he⟩

theorem fwd_sub_names (g : List PRecord) : ∀ k ∈ fwdPrimers g, k ∈ namesOf g :=
  fun k hk => (List.mem_filter.mp hk).1

theorem rev_sub_names (g : List PRecord) : ∀ k ∈ revPrimers g, k ∈ namesOf g :=
  fun k hk => (List.mem_filter.mp hk).1

theorem resolvedRecords_spec {g : List PRecord} (tc ct : List (List Char))
    (hkeys : ∀ k ∈ (resolve_primer_names tc ct).1, ∃ r ∈ g, r.name = k) :
    namesOf (resolvedRecords g tc ct) = (resolve_primer_names tc ct).2 ∧
      ∀ o ∈ resolvedRecords g tc ct,
        ∃ s ∈ g, s.name ∈ (resolve_primer_names tc ct).1 ∧
          o = { s with name := o.name } :=
  joinRows_spec g _ _ (by rw [resolve_fst_length, resolve_snd_length]) hkeys

theorem resolvedRecords_length {g : List PRecord} (tc ct : List (List Char))
    (hkeys : ∀ k ∈ (resolve_primer_names tc ct).1, ∃ r ∈ g, r.name = k) :
    (resolvedRecords g tc ct).length = 2 * (tc.length * ct.length) := by
  have h1 := (resolvedRecords_spec tc ct hkeys).1
  have h2 : (resolvedRecords g tc ct).length =
      (namesOf (resolvedRecords g tc ct)).length := by simp [namesOf]
  rw [h2, h1, resolve_snd_length]

/-- C4: an odd group with unequal orientation counts and unique names
resolves to exactly 2 * min * max synthesized records. -/
theorem claim_C4 (g : List PRecord)
    (h1 : g.length % 2 = 1)
    (h2 : (fwdPrimers g).length ≠ (revPrimers g).length)
    (h3 : (namesOf g).Nodup) :
    ∃ res, respliceGroup g = .ok (some res) ∧
      res.length = 2 * (min (fwdPrimers g).length (revPrimers g).length *
        max (fwdPrimers g).length (revPrimers g).length) := by
  rcases Nat.lt_or_ge (fwdPrimers g).length (revPrimers g).length with hlt | hge
  · refine ⟨_, respliceGroup_lt h1 hlt h3, ?_⟩
    rw [resolvedRecords_length (fwdPrimers g) (revPrimers g)
      (keys_name_records (fwd_sub_names g) (rev_sub_names g)),
      Nat.min_eq_left (Nat.le_of_lt hlt), Nat.max_eq_right (Nat.le_of_lt hlt)]
  · have hgt : (revPrimers g).length < (fwdPrimers g).length := by omega
    refine ⟨_, respliceGroup_gt h1 hgt h3, ?_⟩
    rw [resolvedRecords_length (revPrimers g) (fwdPrimers g)
      (keys_name_records (rev_sub_names g) (fwd_sub_names g)),
      Nat.min_eq_right (Nat.le_of_lt hgt), Nat.max_eq_left (Nat.le_of_lt hgt)]

/-- Witness for C4 at a concrete input: one forward and two reverse
primers give four synthesized records. -/
theorem claim_C4_witness :
    ∃ res, respliceGroup wOdd = .ok (some res) ∧
      res.length = 2 * (min (fwdPrimers wOdd).length (revPrimers wOdd).length *
        max (fwdPrimers wOdd).length (revPrimers wOdd).length) :=
  claim_C4 wOdd (by rfl) (by decide) (by decide)

end Resplice

namespace Resplice

/-- C10: in an odd group, a record whose name has neither orientation mark
lands in neither orientation list and feeds no output record, yet the
parity test counted it, so resolution still runs on the group. -/
theorem claim_C10 (g : List PRecord) (r : PRecord)
    (h1 : g.length % 2 = 1) (h2 : r ∈ g)
    (h3 : hasSub cLEFT r.name = false) (h4 : hasSub cRIGHT r.name = false)
    (h5 : (fwdPrimers g).length ≠ (revPrimers g).length)
    (h6 : (namesOf g).Nodup) :
    r.name ∉ fwdPrimers g ∧ r.name ∉ revPrimers g ∧
      ∃ res, respliceGroup g = .ok (some res) ∧
        ∀ o ∈ res, ∃ s ∈ g, s ≠ r ∧ o = { s with name := o.name } := by
  have hnf : r.name ∉ fwdPrimers g := by
    intro hmem
    have := (List.mem_filter.mp hmem).2
    rw [h3] at this
    cases this
  have hnr : r.name ∉ revPrimers g := by
    intro hmem
    have := (List.mem_filter.mp hmem).2
    rw [h4] at this
    cases this
  refine ⟨hnf, hnr, ?_⟩
  have hfin : ∀ (tc ct : List (List Char)),
      (∀ k ∈ tc, hasSub cLEFT k = true ∨ hasSub cRIGHT k = true) →
      (∀ k ∈ ct, hasSub cLEFT k = true ∨ hasSub cRIGHT k = true) →
      (hkeys : ∀ k ∈ (resolve_primer_names tc ct).1, ∃ s ∈ g, s.name = k) →
      ∀ o ∈ resolvedRecords g tc ct,
        ∃ s ∈ g, s ≠ r ∧ o = { s with name := o.name } := by
    intro tc ct htc hct hkeys o ho
    obtain ⟨s, hs, hsk, hso⟩ := (resolvedRecords_spec tc ct hkeys).2 o ho
    refine ⟨s, hs, ?_, hso⟩
    intro hsr
    subst hsr
    rcases mem_join_keys hsk with hk | hk
    · rcases htc s.name hk with ho | ho
      · rw [h3] at ho; cases ho
      · rw [h4] at ho; cases ho
    · rcases hct s.name hk with ho | ho
      · rw [h3] at ho; cases ho
      · rw [h4] at ho; cases ho
  have hfwdO : ∀ k ∈ fwdPrimers g, hasSub cLEFT k = true ∨ hasSub cRIGHT k = true :=
    fun k hk => Or.inl (List.mem_filter.mp hk).2
  have hrevO : ∀ k ∈ revPrimers g, hasSub cLEFT k = true ∨ hasSub cRIGHT k = true :=
    fun k hk => Or.inr (List.mem_filter.mp hk).2
  rcases Nat.lt_or_ge (fwdPrimers g).length (revPrimers g).length with hlt | hge
  · exact ⟨_, respliceGroup_lt h1 hlt h6,
      hfin _ _ hfwdO hrevO (keys_name_records (fwd_sub_names g) (rev_sub_names g))⟩
  · have hgt : (revPrimers g).length < (fwdPrimers g).length := by omega
    exact ⟨_, respliceGroup_gt h1 hgt h6,
      hfin _ _ hrevO hfwdO (keys_name_records (rev_sub_names g) (fwd_sub_names g))⟩

def wNeither : PRecord := mkRec "FOO" 70

def wOddNeither : List PRecord :=
  [mkRec "AMP1_LEFT" 0, mkRec "AMP1_RIGHT" 50, mkRec "AMP1_RIGHT-2" 60,
    wNeither, mkRec "BAR" 80]

/-- Witness for C10 at a concrete input: a five-record odd group with two
orientation-free records that trigger resolution but contribute nothing. -/
theorem claim_C10_witness :
    wNeither.name ∉ fwdPrimers wOddNeither ∧
      wNeither.name ∉ revPrimers wOddNeither ∧
      ∃ res, respliceGroup wOddNeither = .ok (some res) ∧
        ∀ o ∈ res, ∃ s ∈ wOddNeither, s ≠ wNeither ∧
          o = { s with name := o.name } :=
  claim_C10 wOddNeither wNeither (by rfl) (by decide) (by rfl) (by rfl)
    (by decide) (by decide)

end Resplice

namespace Resplice

theorem filter_length_pos_iff {p : List Char → Bool} {l : List (List Char)} :
    0 < (l.filter p).length ↔ ∃ x ∈ l, p x = true := by
  rw [List.length_pos]
  constructor
  · intro hne
    rcases hfe : l.filter p with _ | ⟨x, xs⟩
    · exact absurd hfe hne
    · have hx : x ∈ l.filter p := hfe ▸ List.mem_cons_self x xs
      exact ⟨x, (List.mem_filter.mp hx).1, (List.mem_filter.mp hx).2⟩
  · rintro ⟨x, hx, hpx⟩ hfe
    have hmem : x ∈ l.filter p := List.mem_filter.mpr ⟨hx, hpx⟩
    rw [hfe] at hmem
    cases hmem

theorem keepGroup_iff (h : List PRecord) :
    keepGroup h = true ↔
      (∃ nm ∈ namesOf h, cLEFT <:+: nm) ∧ (∃ nm ∈ namesOf h, cRIGHT <:+: nm) := by
  simp only [keepGroup, Bool.and_eq_true, decide_eq_true_eq, gt_iff_lt]
  rw [filter_length_pos_iff, filter_length_pos_iff]
  simp only [hasSub_iff]

/-- C6: the Finalizer keeps a group iff its names include at least one
containing _LEFT and one containing _RIGHT; hence every kept group has
both, and the final concatenated output is exactly the kept groups. -/
theorem claim_C6 (mf : List (List PRecord)) (g : List PRecord) :
    (g ∈ finalKept mf ↔ g ∈ mf ∧ (∃ nm ∈ namesOf g, cLEFT <:+: nm) ∧
      (∃ nm ∈ namesOf g, cRIGHT <:+: nm)) ∧
    (∀ h ∈ finalKept mf, (∃ nm ∈ namesOf h, cLEFT <:+: nm) ∧
      (∃ nm ∈ namesOf h, cRIGHT <:+: nm)) ∧
    (∀ out, finalize_primer_pairings mf = .ok out → out = concatAll (finalKept mf)) := by
  refine ⟨?_, ?_, ?_⟩
  · rw [finalKept, List.mem_filter, keepGroup_iff g]
  · intro h hh
    exact (keepGroup_iff h).mp (List.mem_filter.mp hh).2
  · intro out hout
    rw [finalize_primer_pairings] at hout
    split_ifs at hout
    simpa using hout.symm

/-- Witness for C6 at a concrete input. -/
theorem claim_C6_witness :
    (wEven ∈ finalKept [wEven] ↔ wEven ∈ [wEven] ∧
      (∃ nm ∈ namesOf wEven, cLEFT <:+: nm) ∧
      (∃ nm ∈ namesOf wEven, cRIGHT <:+: nm)) ∧
    (∀ h ∈ finalKept [wEven], (∃ nm ∈ namesOf h, cLEFT <:+: nm) ∧
      (∃ nm ∈ namesOf h, cRIGHT <:+: nm)) ∧
    (∀ out, finalize_primer_pairings [wEven] = .ok out →
      out = concatAll (finalKept [wEven])) :=
  claim_C6 [wEven] wEven

end Resplice

namespace Resplice

/-! ### Lemmas about the Deduplicator -/

theorem mem_concatAll {α : Type} {x : α} {l : List α} {ll : List (List α)}
    (hx : x ∈ l) (hl : l ∈ ll) : x ∈ concatAll ll := by
  induction ll with
  | nil => cases hl
  | cons a as ih =>
    rcases List.mem_cons.mp hl with h | h
    · exact List.mem_append_left _ (h ▸ hx)
    · exact List.mem_append_right _ (ih h)

theorem mem_of_concatAll {α : Type} {x : α} {ll : List (List α)}
    (hx : x ∈ concatAll ll) : ∃ l ∈ ll, x ∈ l := by
  induction ll with
  | nil => cases hx
  | cons a as ih =>
    rcases List.mem_append.mp hx with h | h
    · exact ⟨a, List.mem_cons_self a as, h⟩
    · obtain ⟨l, hl, hxl⟩ := ih h
      exact ⟨l, List.mem_cons_of_mem a hl, hxl⟩

/-- Membership in a first-seen-order distinct-value fold. -/
theorem keyfold_mem {α β : Type} [BEq β] [LawfulBEq β] (flag : α → β) :
    ∀ (l : List α) (acc : List β) (v : β),
      v ∈ l.foldl (fun a r => if a.contains (flag r) then a else a ++ [flag r]) acc ↔
        v ∈ acc ∨ ∃ r ∈ l, flag r = v := by
  intro l
  induction l with
  | nil => intro acc v; simp
  | cons r l ih =>
    intro acc v
    show v ∈ List.foldl _ (if acc.contains (flag r) then acc else acc ++ [flag r]) l ↔ _
    by_cases hc : acc.contains (flag r)
    · rw [if_pos hc, ih]
      have hfr : flag r ∈ acc := by simpa using hc
      constructor
      · rintro (h | ⟨r', hr', he⟩)
        · exact Or.inl h
        · exact Or.inr ⟨r', List.mem_cons_of_mem r hr', he⟩
      · rintro (h | ⟨r', hr', he⟩)
        · exact Or.inl h
        · rcases List.mem_cons.mp hr' with h' | h'
          · exact Or.inl (by rw [← he, h']; exact hfr)
          · exact Or.inr ⟨r', h', he⟩
    · rw [if_neg hc, ih]
      constructor
      · rintro (h | ⟨r', hr', he⟩)
        · rcases List.mem_append.mp h with h' | h'
          · exact Or.inl h'
          · simp at h'
            exact Or.inr ⟨r, List.mem_cons_self r l, h'.symm⟩
        · exact Or.inr ⟨r', List.mem_cons_of_mem r hr', he⟩
      · rintro (h | ⟨r', hr', he⟩)
        · exact Or.inl (List.mem_append_left _ h)
        · rcases List.mem_cons.mp hr' with h' | h'
          · subst h'
            exact Or.inl (List.mem_append_right _ (by simp [he]))
          · exact Or.inr ⟨r', h', he⟩

theorem dupFlagOrder_mem {g : List PRecord} {v : Bool} :
    v ∈ dupFlagOrder g ↔ ∃ r ∈ g, isDupedIn g r.name = v := by
  rw [dupFlagOrder, keyfold_mem (fun r => isDupedIn g r.name) g [] v]
  simp

theorem keyOrder_mem {key : PRecord → List Char} {rows : List PRecord} {v : List Char} :
    v ∈ keyOrder key rows ↔ ∃ r ∈ rows, key r = v := by
  rw [keyOrder, keyfold_mem key rows [] v]
  simp

/-- C3 amended: when a frame is deduplicated, every record of the
duplicated subset reappears with its 1-based row number within the whole
duplicated subset (not within its own name group) appended after a dash,
and every record with a unique name reappears unchanged. -/
theorem claim_C3 (g : List PRecord) :
    (∀ kr ∈ enumF 1 (g.filter (fun r => isDupedIn g r.name)),
      { kr.2 with name := kr.2.name ++ '-' :: natChars kr.1 } ∈ dedupFrame g) ∧
    (∀ r ∈ g, isDupedIn g r.name = false → r ∈ dedupFrame g) := by
  constructor
  · intro kr hkr
    have hdsne : g.filter (fun r => isDupedIn g r.name) ≠ [] := by
      intro he
      rw [he] at hkr
      cases hkr
    have hex : ∃ r ∈ g, isDupedIn g r.name = true := by
      rcases hne : g.filter (fun r => isDupedIn g r.name) with _ | ⟨x, xs⟩
      · exact absurd hne hdsne
      · have hx : x ∈ g.filter (fun r => isDupedIn g r.name) :=
          hne ▸ List.mem_cons_self x xs
        exact ⟨x, (List.mem_filter.mp hx).1, (List.mem_filter.mp hx).2⟩
    have htrue : true ∈ dupFlagOrder g := dupFlagOrder_mem.mpr hex
    have hpart : g.filter (fun r => isDupedIn g r.name == true) ∈ dupPartition g :=
      List.mem_map_of_mem _ htrue
    have hfe : g.filter (fun r => isDupedIn g r.name == true) =
        g.filter (fun r => isDupedIn g r.name) :=
      List.filter_congr (fun r _ => by cases isDupedIn g r.name <;> simp)
    rw [hfe] at hpart
    have hany : (g.filter (fun r => isDupedIn g r.name)).any
        (fun r => isDupedIn g r.name) = true := by
      rcases hex with ⟨r, hr, hdr⟩
      exact List.any_eq_true.mpr ⟨r, List.mem_filter.mpr ⟨hr, hdr⟩, hdr⟩
    have hstep : renameDuped (g.filter (fun r => isDupedIn g r.name)) ∈
        (dupPartition g).map
          (fun p => if p.any (fun r => isDupedIn g r.name) then renameDuped p else p) :=
      List.mem_map.mpr ⟨g.filter (fun r => isDupedIn g r.name), hpart, by simp [hany]⟩
    have hmm : { kr.2 with name := kr.2.name ++ '-' :: natChars kr.1 } ∈
        renameDuped (g.filter (fun r => isDupedIn g r.name)) := by
      rw [renameDuped]
      exact List.mem_map.mpr ⟨kr, hkr, rfl⟩
    exact mem_concatAll hmm hstep
  · intro r hr hru
    have hfalse : false ∈ dupFlagOrder g := dupFlagOrder_mem.mpr ⟨r, hr, hru⟩
    have hpart : g.filter (fun r => isDupedIn g r.name == false) ∈ dupPartition g :=
      List.mem_map_of_mem _ hfalse
    have hnone : (g.filter (fun r => isDupedIn g r.name == false)).any
        (fun r => isDupedIn g r.name) = false := by
      rw [Bool.eq_false_iff]
      intro hm
      rcases List.any_eq_true.mp hm with ⟨s, hs, hds⟩
      have := (List.mem_filter.mp hs).2
      rw [hds] at this
      cases this
    have hstep : g.filter (fun r => isDupedIn g r.name == false) ∈
        (dupPartition g).map
          (fun p => if p.any (fun r => isDupedIn g r.name) then renameDuped p else p) :=
      List.mem_map.mpr ⟨g.filter (fun r => isDupedIn g r.name == false), hpart,
        by simp [hnone]⟩
    refine mem_concatAll ?_ hstep
    exact List.mem_filter.mpr ⟨hr, by simp [hru]⟩

/-- Witness for C3 at a concrete input: the second duplicated record gets
rank 2, the unique record is untouched. -/
theorem claim_C3_witness :
    { mkRec "X" 10 with name := "X-2".data } ∈
        dedupFrame [mkRec "X" 0, mkRec "X" 10, mkRec "Z" 20] ∧
      mkRec "Z" 20 ∈ dedupFrame [mkRec "X" 0, mkRec "X" 10, mkRec "Z" 20] :=
  ⟨(claim_C3 [mkRec "X" 0, mkRec "X" 10, mkRec "Z" 20]).1
      (2, mkRec "X" 10) (by decide),
    (claim_C3 [mkRec "X" 0, mkRec "X" 10, mkRec "Z" 20]).2
      (mkRec "Z" 20) (by decide) (by rfl)⟩

end Resplice

namespace Resplice

/-! ### The write-back bug of the Deduplicator loop -/

def exBad : List (List PRecord) :=
  [[mkRec "N" 0, mkRec "N" 10, mkRec "P" 20], [mkRec "Q" 30]]

def exBadMut : List (List PRecord) :=
  [[mkRec "N" 0, mkRec "N" 10, mkRec "P" 20],
    [{ mkRec "N" 0 with name := "N-1".data },
      { mkRec "N" 10 with name := "N-2".data }, mkRec "P" 20]]

def exBadG1 : List PRecord :=
  [mkRec "N" 0, mkRec "N" 10,
    { mkRec "N" 0 with name := "N-1".data },
    { mkRec "N" 10 with name := "N-2".data }]

def exBadOut : List (List PRecord) :=
  [exBadG1, [mkRec "P" 20, mkRec "P" 20]]

/-- Counterexample for C2 as stated: with the duplicated names in the first
of two groups, the rewritten frame is stored at index 1, clobbering the
second group, and after re-partitioning the first output group still holds
the duplicated names N, N (and P, P). -/
theorem claim_C2_counterexample :
    dedup_primers exBad = .ok exBadOut ∧ exBadG1 ∈ exBadOut ∧
      ¬ (namesOf exBadG1).Nodup :=
  ⟨rfl, by decide, by decide⟩

/-- Counterexample for C9 as stated: dedup_primers writes the rewritten
frame back into the caller's list, which afterwards differs from what the
caller passed in. -/
theorem claim_C9_counterexample :
    dedupMutated exBad = .ok exBadMut ∧ exBadMut ≠ exBad :=
  ⟨rfl, by decide⟩

/-- C9 amended: the Deduplicator leaves the caller's partitioned list
unchanged exactly when no group holds a duplicated name, since the loop
writes back only for frames with duplicates. -/
theorem claim_C9 (bed : List (List PRecord))
    (h : ∀ g ∈ bed, hasDup g = false) :
    dedupMutated bed = .ok bed := by
  suffices h2 : ∀ fuel i, dedupGo fuel i bed = .ok bed from h2 bed.length 0
  intro fuel
  induction fuel with
  | zero => intro i; rfl
  | succ f ih =>
    intro i
    rcases hgi : bed[i]? with _ | df
    · simp [dedupGo, hgi]
    · have hdf : hasDup df = false := h df (List.getElem?_mem hgi)
      simp [dedupGo, hgi, hdf, ih]

/-- Witness for C9 at a concrete input with no duplicate names. -/
theorem claim_C9_witness : dedupMutated [wEven] = .ok [wEven] :=
  claim_C9 [wEven] (by decide)

/-! ### Deduplication of a single fully duplicated group -/

theorem foldl_flags_stable {α β : Type} [BEq β] [LawfulBEq β] (flag : α → β) :
    ∀ (l : List α) (acc : List β), (∀ r ∈ l, acc.contains (flag r) = true) →
      l.foldl (fun a r => if a.contains (flag r) then a else a ++ [flag r]) acc = acc := by
  intro l
  induction l with
  | nil => intro acc _; rfl
  | cons r l ih =>
    intro acc hacc
    show List.foldl _ (if acc.contains (flag r) then acc else acc ++ [flag r]) l = acc
    rw [if_pos (hacc r (List.mem_cons_self r l))]
    exact ih acc (fun s hs => hacc s (List.mem_cons_of_mem r hs))

theorem dupFlagOrder_all_true {g : List PRecord} (hne : g ≠ [])
    (hall : ∀ r ∈ g, isDupedIn g r.name = true) : dupFlagOrder g = [true] := by
  rw [dupFlagOrder]
  rcases hg : g with _ | ⟨r, g'⟩
  · exact absurd hg hne
  · rw [← hg]
    have hstep : ∀ acc : List Bool, g.foldl
        (fun a s => if a.contains (isDupedIn g s.name) then a
          else a ++ [isDupedIn g s.name]) acc =
        g'.foldl (fun a s => if a.contains (isDupedIn g s.name) then a
          else a ++ [isDupedIn g s.name])
          (if acc.contains (isDupedIn g r.name) then acc
            else acc ++ [isDupedIn g r.name]) := by
      intro acc
      rw [hg]
      rfl
    rw [hstep []]
    have hr : isDupedIn g r.name = true := hall r (by rw [hg]; exact List.mem_cons_self r g')
    rw [hr]
    have : (([] : List Bool).contains true) = false := rfl
    rw [this]
    simp only [Bool.false_eq_true, if_neg (by simp : ¬ False), List.nil_append]
    exact foldl_flags_stable (fun s => isDupedIn g s.name) g' [true]
      (fun s hs => by simp [hall s (by rw [hg]; exact List.mem_cons_of_mem r hs)])

theorem dupPartition_all_true {g : List PRecord} (hne : g ≠ [])
    (hall : ∀ r ∈ g, isDupedIn g r.name = true) : dupPartition g = [g] := by
  rw [dupPartition, dupFlagOrder_all_true hne hall]
  simp only [List.map_cons, List.map_nil]
  congr 1
  exact List.filter_eq_self.mpr (fun r hr => by simp [hall r hr])

theorem dedupFrame_all_true {g : List PRecord} (hne : g ≠ [])
    (hall : ∀ r ∈ g, isDupedIn g r.name = true) : dedupFrame g = renameDuped g := by
  rw [dedupFrame, dupPartition_all_true hne hall]
  have hany : g.any (fun r => isDupedIn g r.name) = true := by
    rcases hg : g with _ | ⟨r, g'⟩
    · exact absurd hg hne
    · rw [← hg]
      exact List.any_eq_true.mpr ⟨r, by rw [hg]; exact List.mem_cons_self r g',
        hall r (by rw [hg]; exact List.mem_cons_self r g')⟩
  simp [concatAll, hany]

theorem dedup_single_all {g : List PRecord} (hne : g ≠ [])
    (hall : ∀ r ∈ g, isDupedIn g r.name = true) :
    dedup_primers [g] = .ok (partitionByKey (fun r => r.amplicon) (renameDuped g)) := by
  have hdup : hasDup g = true := by
    rcases hg : g with _ | ⟨r, g'⟩
    · exact absurd hg hne
    · rw [← hg]
      exact List.any_eq_true.mpr ⟨r, by rw [hg]; exact List.mem_cons_self r g',
        hall r (by rw [hg]; exact List.mem_cons_self r g')⟩
  have hmut : dedupMutated [g] = .ok [dedupFrame g] := by
    show dedupGo 1 0 [g] = .ok [dedupFrame g]
    simp [dedupGo, hdup, dupPartition_all_true hne hall]
  rw [dedup_primers, hmut]
  simp [concatAll, dedupFrame_all_true hne hall]

end Resplice

namespace Resplice

theorem enumF_fst_ge {α : Type} :
    ∀ {n : Nat} {l : List α} {kr : Nat × α}, kr ∈ enumF n l → n ≤ kr.1 := by
  intro n l
  induction l generalizing n with
  | nil => intro kr h; cases h
  | cons a as ih =>
    intro kr h
    rcases List.mem_cons.mp h with h | h
    · rw [h]
    · exact Nat.le_of_succ_le (ih h)

/-- Appending a dash and a decimal rank makes the rank recoverable: equal
results force equal ranks. -/
theorem dashSuffix_inj {a b : List Char} {k j : Nat}
    (h : a ++ '-' :: natChars k = b ++ '-' :: natChars j) : k = j := by
  rcases eqAppendCons h with ⟨_, h2⟩ | ⟨w, _, h2⟩ | ⟨w, _, h2⟩
  · exact natChars_inj h2
  · exact absurd (h2 ▸ List.mem_append_right w (List.mem_cons_self _ _))
      (natChars_dash_not_mem k)
  · exact absurd (h2 ▸ List.mem_append_right w (List.mem_cons_self _ _))
      (natChars_dash_not_mem j)

theorem renamed_namelist_nodup (p : List PRecord) :
    ∀ n : Nat,
      ((enumF n p).map (fun kr => kr.2.name ++ '-' :: natChars kr.1)).Nodup := by
  induction p with
  | nil => intro n; simp [enumF]
  | cons r p' ih =>
    intro n
    simp only [enumF, List.map_cons]
    rw [List.nodup_cons]
    constructor
    · intro hmem
      simp only [List.mem_map] at hmem
      obtain ⟨kr, hkr, he⟩ := hmem
      have hk : kr.1 = n := dashSuffix_inj he
      have := enumF_fst_ge hkr
      omega
    · exact ih (n + 1)

theorem renameDuped_names_nodup (p : List PRecord) :
    (namesOf (renameDuped p)).Nodup := by
  have he : namesOf (renameDuped p) =
      (enumF 1 p).map (fun kr => kr.2.name ++ '-' :: natChars kr.1) := by
    rw [namesOf, renameDuped, List.map_map]
    rfl
  rw [he]
  exact renamed_namelist_nodup p 1

theorem partition_names_nodup {key : PRecord → List Char} {rows : List PRecord}
    (h : (namesOf rows).Nodup) :
    ∀ gg ∈ partitionByKey key rows, (namesOf gg).Nodup := by
  intro gg hgg
  rcases List.mem_map.mp hgg with ⟨k, _, he⟩
  subst he
  have hsub : List.Sublist (namesOf (rows.filter (fun r => key r == k)))
      (namesOf rows) :=
    List.Sublist.map _ (List.filter_sublist rows)
  exact hsub.nodup h

/-- C2 amended: the Deduplicator guarantees distinct names per output
group for a single-group input all of whose records carry duplicated
names; in general the guarantee fails because the rewritten frame is
written back at the wrong list index (see the counterexample). -/
theorem claim_C2 (g : List PRecord) (out : List (List PRecord))
    (hall : ∀ r ∈ g, isDupedIn g r.name = true)
    (hok : dedup_primers [g] = .ok out) :
    ∀ gg ∈ out, (namesOf gg).Nodup := by
  by_cases hne : g = []
  · subst hne
    have hnil : dedup_primers [[]] = .ok [] := rfl
    rw [hnil] at hok
    have : ([] : List (List PRecord)) = out := by simpa using hok
    subst this
    intro gg hgg
    cases hgg
  · rw [dedup_single_all hne hall] at hok
    have hout : partitionByKey (fun r => r.amplicon) (renameDuped g) = out := by
      simpa using hok
    subst hout
    exact partition_names_nodup (renameDuped_names_nodup g)

/-- Witness for C2 at a concrete input: two records of the same name are
renamed apart. -/
theorem claim_C2_witness :
    (namesOf [{ mkRec "X" 0 with name := "X-1".data },
      { mkRec "X" 10 with name := "X-2".data }]).Nodup :=
  claim_C2 [mkRec "X" 0, mkRec "X" 10] _ (by decide) (by rfl)
    [{ mkRec "X" 0 with name := "X-1".data },
      { mkRec "X" 10 with name := "X-2".data }] (by decide)

end Resplice

namespace Resplice

/-! ### C5: splice-index pairing -/

def exC5 : List PRecord :=
  [mkRec "A-B_LEFT_X" 0, mkRec "A_RIGHT" 10, mkRec "A_RIGHT-2" 20]

def exC5res : List PRecord :=
  [{ mkRec "A-B_LEFT_X" 0 with name := "A_splice1_X".data },
    { mkRec "A-B_LEFT_X" 0 with name := "A_splice2_X".data },
    { mkRec "A_RIGHT" 10 with name := "A_splice1_RIGHT".data },
    { mkRec "A_RIGHT-2" 20 with name := "A_splice2_RIGHT-2".data }]

/-- Counterexample for C5 as stated: in this resolved odd group every
primer name contains exactly one of _LEFT and _RIGHT, yet for pairing
index 1 no synthesized name containing _LEFT carries the token _splice1_
(the forward primer's _LEFT mark sits before a dash and is stripped). -/
theorem claim_C5_counterexample :
    exC5.length % 2 = 1 ∧
      (fwdPrimers exC5).length ≠ (revPrimers exC5).length ∧
      (∀ nm ∈ namesOf exC5, hasSub cLEFT nm ≠ hasSub cRIGHT nm) ∧
      respliceGroup exC5 = .ok (some exC5res) ∧
      (namesOf exC5res).countP
        (fun nm => hasSub cLEFT nm && hasSub (spliceTok 1) nm) = 0 :=
  ⟨rfl, by decide, by decide, by rfl, by rfl⟩

/-- Count of minority-orientation splice names carrying token j: exactly
one, the one synthesized for pairing j. -/
theorem count_min_ori {g : List PRecord} {tc ct : List (List Char)}
    {ori oppo : List Char}
    (htc : ∀ nm ∈ tc, canonicalFor ori oppo nm)
    (hct : ∀ nm ∈ ct, canonicalFor oppo ori nm)
    (hkeys : ∀ k ∈ (resolve_primer_names tc ct).1, ∃ r ∈ g, r.name = k)
    (hori_ne : ori ≠ []) (hoppo_ne : oppo ≠ [])
    (hori_us : '_' ∉ ori)
    (hs2 : ori.head? ≠ some 's') (hd : ori.head? ≠ oppo.head?)
    {j : Nat} (hj1 : 1 ≤ j) (hj2 : j ≤ tc.length * ct.length) :
    (namesOf (resolvedRecords g tc ct)).countP
      (fun nm => hasSub ('_' :: ori) nm && hasSub (spliceTok j) nm) = 1 := by
  have hnames := (resolvedRecords_spec tc ct hkeys).1
  have hplen := pyProduct_length tc ct
  have hA := countP_sideNames_one (fun pr => pr.1) (fun nm => hasSub ('_' :: ori) nm)
    (pyProduct tc ct) 0 j
    (fun pr hpr => (htc pr.1 (pyProduct_mem hpr).1).2.2.2)
    (fun pr hpr k => ori_spliceName_true (htc pr.1 (pyProduct_mem hpr).1) k)
    (by omega) (by omega)
  have hB := countP_sideNames_qfalse (fun pr => pr.2) (fun nm => hasSub ('_' :: ori) nm)
    (pyProduct tc ct) 0 j
    (fun pr hpr k => oppo_spliceName_false (hct pr.2 (pyProduct_mem hpr).2)
      hoppo_ne hori_ne hori_us hs2 hd k)
  have hA' : ((enumF 0 (pyProduct tc ct)).map
      (fun ipr => spliceName ipr.2.1 (ipr.1 + 1))).countP
      (fun nm => hasSub ('_' :: ori) nm && hasSub (spliceTok j) nm) = 1 := hA
  have hB' : ((enumF 0 (pyProduct tc ct)).map
      (fun ipr => spliceName ipr.2.2 (ipr.1 + 1))).countP
      (fun nm => hasSub ('_' :: ori) nm && hasSub (spliceTok j) nm) = 0 := hB
  rw [hnames, resolve_snd, List.countP_append, hA', hB']

/-- Count of majority-orientation splice names carrying token j: exactly
one as well. -/
theorem count_maj_ori {g : List PRecord} {tc ct : List (List Char)}
    {ori oppo : List Char}
    (htc : ∀ nm ∈ tc, canonicalFor ori oppo nm)
    (hct : ∀ nm ∈ ct, canonicalFor oppo ori nm)
    (hkeys : ∀ k ∈ (resolve_primer_names tc ct).1, ∃ r ∈ g, r.name = k)
    (hori_ne : ori ≠ []) (hoppo_ne : oppo ≠ [])
    (hoppo_us : '_' ∉ oppo)
    (hs1 : oppo.head? ≠ some 's') (hd : oppo.head? ≠ ori.head?)
    {j : Nat} (hj1 : 1 ≤ j) (hj2 : j ≤ tc.length * ct.length) :
    (namesOf (resolvedRecords g tc ct)).countP
      (fun nm => hasSub ('_' :: oppo) nm && hasSub (spliceTok j) nm) = 1 := by
  have hnames := (resolvedRecords_spec tc ct hkeys).1
  have hplen := pyProduct_length tc ct
  have hA := countP_sideNames_qfalse (fun pr => pr.1) (fun nm => hasSub ('_' :: oppo) nm)
    (pyProduct tc ct) 0 j
    (fun pr hpr k => oppo_spliceName_false (htc pr.1 (pyProduct_mem hpr).1)
      hori_ne hoppo_ne hoppo_us hs1 hd k)
  have hB := countP_sideNames_one (fun pr => pr.2) (fun nm => hasSub ('_' :: oppo) nm)
    (pyProduct tc ct) 0 j
    (fun pr hpr => (hct pr.2 (pyProduct_mem hpr).2).2.2.2)
    (fun pr hpr k => ori_spliceName_true (hct pr.2 (pyProduct_mem hpr).2) k)
    (by omega) (by omega)
  have hA' : ((enumF 0 (pyProduct tc ct)).map
      (fun ipr => spliceName ipr.2.1 (ipr.1 + 1))).countP
      (fun nm => hasSub ('_' :: oppo) nm && hasSub (spliceTok j) nm) = 0 := hA
  have hB' : ((enumF 0 (pyProduct tc ct)).map
      (fun ipr => spliceName ipr.2.2 (ipr.1 + 1))).countP
      (fun nm => hasSub ('_' :: oppo) nm && hasSub (spliceTok j) nm) = 1 := hB
  rw [hnames, resolve_snd, List.countP_append, hA', hB']

/-- C5 amended: in a resolved odd group whose primer names are canonical
(orientation mark opens the final underscore token, only one orientation
substring occurs, no name already contains _splice), every pairing index
from 1 to min times max is carried by exactly one _LEFT and one _RIGHT
synthesized name. -/
theorem claim_C5 (g : List PRecord)
    (h1 : g.length % 2 = 1)
    (h2 : (fwdPrimers g).length ≠ (revPrimers g).length)
    (h3 : (namesOf g).Nodup)
    (hcan : ∀ nm ∈ namesOf g,
      canonicalFor oLEFT oRIGHT nm ∨ canonicalFor oRIGHT oLEFT nm) :
    ∃ res, respliceGroup g = .ok (some res) ∧
      ∀ j, 1 ≤ j →
        j ≤ min (fwdPrimers g).length (revPrimers g).length *
          max (fwdPrimers g).length (revPrimers g).length →
        (namesOf res).countP
          (fun nm => hasSub cLEFT nm && hasSub (spliceTok j) nm) = 1 ∧
        (namesOf res).countP
          (fun nm => hasSub cRIGHT nm && hasSub (spliceTok j) nm) = 1 := by
  have hfwdcan : ∀ nm ∈ fwdPrimers g, canonicalFor oLEFT oRIGHT nm := by
    intro nm hnm
    have hin := (List.mem_filter.mp hnm).1
    have hl := (List.mem_filter.mp hnm).2
    rcases hcan nm hin with h | h
    · exact h
    · exfalso
      apply h.2.2.1
      rw [← cLEFT_eq]
      exact hasSub_iff.mp hl
  have hrevcan : ∀ nm ∈ revPrimers g, canonicalFor oRIGHT oLEFT nm := by
    intro nm hnm
    have hin := (List.mem_filter.mp hnm).1
    have hr := (List.mem_filter.mp hnm).2
    rcases hcan nm hin with h | h
    · exfalso
      apply h.2.2.1
      rw [← cRIGHT_eq]
      exact hasSub_iff.mp hr
    · exact h
  rcases Nat.lt_or_ge (fwdPrimers g).length (revPrimers g).length with hlt | hge
  · refine ⟨_, respliceGroup_lt h1 hlt h3, ?_⟩
    intro j hj1 hj2
    have hkeys := keys_name_records (g := g) (fwd_sub_names g) (rev_sub_names g)
    have hj2' : j ≤ (fwdPrimers g).length * (revPrimers g).length := by
      rw [Nat.min_eq_left (Nat.le_of_lt hlt), Nat.max_eq_right (Nat.le_of_lt hlt)] at hj2
      exact hj2
    constructor
    · have := count_min_ori hfwdcan hrevcan hkeys (by decide) (by decide)
        (by decide) (by decide) (by decide) hj1 hj2'
      rw [cLEFT_eq]
      exact this
    · have := count_maj_ori hfwdcan hrevcan hkeys (by decide) (by decide)
        (by decide) (by decide) (by decide) hj1 hj2'
      rw [cRIGHT_eq]
      exact this
  · have hgt : (revPrimers g).length < (fwdPrimers g).length := by omega
    refine ⟨_, respliceGroup_gt h1 hgt h3, ?_⟩
    intro j hj1 hj2
    have hkeys := keys_name_records (g := g) (rev_sub_names g) (fwd_sub_names g)
    have hj2' : j ≤ (revPrimers g).length * (fwdPrimers g).length := by
      rw [Nat.min_eq_right (Nat.le_of_lt hgt), Nat.max_eq_left (Nat.le_of_lt hgt)] at hj2
      omega
    constructor
    · have := count_maj_ori hrevcan hfwdcan hkeys (by decide) (by decide)
        (by decide) (by decide) (by decide) hj1 hj2'
      rw [cLEFT_eq]
      exact this
    · have := count_min_ori hrevcan hfwdcan hkeys (by decide) (by decide)
        (by decide) (by decide) (by decide) hj1 hj2'
      rw [cRIGHT_eq]
      exact this

/-- Witness for C5 at a concrete input: the canonical three-primer group. -/
theorem claim_C5_witness :
    ∃ res, respliceGroup wOdd = .ok (some res) ∧
      ∀ j, 1 ≤ j →
        j ≤ min (fwdPrimers wOdd).length (revPrimers wOdd).length *
          max (fwdPrimers wOdd).length (revPrimers wOdd).length →
        (namesOf res).countP
          (fun nm => hasSub cLEFT nm && hasSub (spliceTok j) nm) = 1 ∧
        (namesOf res).countP
          (fun nm => hasSub cRIGHT nm && hasSub (spliceTok j) nm) = 1 :=
  claim_C5 wOdd (by rfl) (by decide) (by decide) (by decide)

end Resplice

namespace Resplice

/-! ### C8: original names survive every stage -/

theorem joinRows_orig {g : List PRecord} {ks ns : List (List Char)} :
    ∀ o ∈ joinRows g ks ns, ∃ s ∈ g, o.origName = s.origName := by
  intro o ho
  rw [joinRows] at ho
  obtain ⟨knn, _, hf⟩ := List.mem_filterMap.mp ho
  obtain ⟨r, hfr, he⟩ := Option.map_eq_some'.mp hf
  refine ⟨r, List.mem_of_find?_eq_some hfr, ?_⟩
  rw [← he]

theorem resolvedRecords_orig {g : List PRecord} (tc ct : List (List Char)) :
    ∀ o ∈ resolvedRecords g tc ct, ∃ s ∈ g, o.origName = s.origName := by
  unfold resolvedRecords
  exact joinRows_orig

theorem respliceGroup_orig {g res : List PRecord}
    (h : respliceGroup g = .ok (some res)) :
    ∀ o ∈ res, ∃ s ∈ g, o.origName = s.origName := by
  unfold respliceGroup at h
  split_ifs at h
  all_goals try cases h
  all_goals
    first
      | exact resolvedRecords_orig _ _
      | exact fun o ho => ⟨o, ho, rfl⟩

theorem resplice_orig :
    ∀ (dd mf : List (List PRecord)), resplice_primers dd = .ok mf →
      ∀ o ∈ concatAll mf, ∃ s ∈ concatAll dd, o.origName = s.origName := by
  intro dd
  induction dd with
  | nil =>
    intro mf h o ho
    have : ([] : List (List PRecord)) = mf := by simpa [resplice_primers] using h
    subst this
    cases ho
  | cons g rest ih =>
    intro mf h o ho
    rw [resplice_cons] at h
    cases hp : respliceGroup g with
    | error e => rw [hp] at h; cases h
    | ok opt =>
      rw [hp] at h
      cases opt with
      | none =>
        simp at h
        subst h
        cases ho
      | some od =>
        cases hr : resplice_primers rest with
        | error e => rw [hr] at h; cases h
        | ok outs =>
          rw [hr] at h
          simp at h
          subst h
          rcases List.mem_append.mp ho with hol | hor
          · obtain ⟨s, hs, he⟩ := respliceGroup_orig hp o hol
            exact ⟨s, List.mem_append_left _ hs, he⟩
          · obtain ⟨s, hs, he⟩ := ih outs hr o hor
            exact ⟨s, List.mem_append_right _ hs, he⟩

theorem dedupFrame_orig {g : List PRecord} :
    ∀ o ∈ dedupFrame g, ∃ s ∈ g, o.origName = s.origName := by
  intro o ho
  rw [dedupFrame] at ho
  obtain ⟨l, hl, hol⟩ := mem_of_concatAll ho
  obtain ⟨p, hp, he⟩ := List.mem_map.mp hl
  obtain ⟨b, _, hpe⟩ := List.mem_map.mp hp
  subst he
  by_cases hany : p.any (fun r => isDupedIn g r.name) = true
  · rw [if_pos hany] at hol
    rw [renameDuped] at hol
    obtain ⟨kr, hkr, he2⟩ := List.mem_map.mp hol
    have hmem : kr.2 ∈ p := enumF_mem_snd hkr
    refine ⟨kr.2, ?_, by rw [← he2]⟩
    rw [← hpe] at hmem
    exact (List.mem_filter.mp hmem).1
  · rw [if_neg hany] at hol
    refine ⟨o, ?_, rfl⟩
    rw [← hpe] at hol
    exact (List.mem_filter.mp hol).1

theorem dedupGo_orig :
    ∀ (fuel i : Nat) (bed bed' : List (List PRecord)),
      dedupGo fuel i bed = .ok bed' →
      ∀ o ∈ concatAll bed', ∃ s ∈ concatAll bed, o.origName = s.origName := by
  intro fuel
  induction fuel with
  | zero =>
    intro i bed bed' h o ho
    have : bed = bed' := by simpa [dedupGo] using h
    subst this
    exact ⟨o, ho, rfl⟩
  | succ f ih =>
    intro i bed bed' h o ho
    rcases hgi : bed[i]? with _ | df
    · have hrw : dedupGo (f + 1) i bed = .ok bed := by rw [dedupGo, hgi]
      rw [hrw] at h
      simp only [Except.ok.injEq] at h
      subst h
      exact ⟨o, ho, rfl⟩
    · have hrw : dedupGo (f + 1) i bed =
          (if hasDup df then
            if (dupPartition df).length - 1 < bed.length then
              dedupGo f (i + 1)
                (bed.set ((dupPartition df).length - 1) (dedupFrame df))
            else .error ()
          else dedupGo f (i + 1) bed) := by rw [dedupGo, hgi]
      rw [hrw] at h
      by_cases hdup : hasDup df = true
      · rw [if_pos hdup] at h
        by_cases hj : (dupPartition df).length - 1 < bed.length
        · rw [if_pos hj] at h
          obtain ⟨s, hs, he⟩ := ih (i + 1) _ bed' h o ho
          obtain ⟨l, hl, hsl⟩ := mem_of_concatAll hs
          rcases List.mem_or_eq_of_mem_set hl with hl' | hl'
          · exact ⟨s, mem_concatAll hsl hl', he⟩
          · subst hl'
            obtain ⟨s0, hs0, he0⟩ := dedupFrame_orig s hsl
            exact ⟨s0, mem_concatAll hs0 (List.getElem?_mem hgi), he.trans he0⟩
        · rw [if_neg hj] at h
          cases h
      · rw [if_neg hdup] at h
        exact ih (i + 1) bed bed' h o ho

theorem mem_partition_sub {key : PRecord → List Char} {rows : List PRecord}
    {gg : List PRecord} (hgg : gg ∈ partitionByKey key rows) :
    ∀ o ∈ gg, o ∈ rows := by
  intro o ho
  obtain ⟨k, _, he⟩ := List.mem_map.mp hgg
  rw [← he] at ho
  exact (List.mem_filter.mp ho).1

theorem dedup_primers_orig {bed dd : List (List PRecord)}
    (h : dedup_primers bed = .ok dd) :
    ∀ o ∈ concatAll dd, ∃ s ∈ concatAll bed, o.origName = s.origName := by
  intro o ho
  cases hm : dedupMutated bed with
  | error e => rw [dedup_primers, hm] at h; cases h
  | ok bed' =>
    have hred : dedup_primers bed =
        (if bed'.isEmpty then .error ()
          else .ok (partitionByKey (fun r => r.amplicon) (concatAll bed'))) := by
      rw [dedup_primers, hm]
    rw [hred] at h
    by_cases hie : bed'.isEmpty = true
    · rw [if_pos hie] at h
      cases h
    · rw [if_neg hie] at h
      simp only [Except.ok.injEq] at h
      subst h
      obtain ⟨gg, hgg, hogg⟩ := mem_of_concatAll ho
      have ho' : o ∈ concatAll bed' := mem_partition_sub hgg o hogg
      exact dedupGo_orig bed.length 0 bed bed' hm o ho'

theorem mem_insertRow {o a : PRecord} {l : List PRecord} :
    o ∈ insertRow a l ↔ o = a ∨ o ∈ l := by
  induction l with
  | nil => simp [insertRow]
  | cons b bs ih =>
    rw [insertRow]
    by_cases hle : rowLE a b = true
    · simp [hle]
    · simp only [if_neg hle, List.mem_cons, ih]
      tauto

theorem mem_sortRows {o : PRecord} {l : List PRecord} :
    o ∈ sortRows l ↔ o ∈ l := by
  induction l with
  | nil => simp [sortRows]
  | cons a as ih =>
    rw [sortRows, mem_insertRow, ih]
    simp

/-- C8: every record of the final output carries as its original name the
name some input row had at ingestion; no stage ever rewrites the
ORIG_NAME column. -/
theorem claim_C8 (raws : List RawRow) (out : List PRecord)
    (h : pipelineRun raws = .ok out) :
    ∀ o ∈ out, ∃ raw ∈ raws, o.origName = raw.name := by
  intro o ho
  cases hd : dedup_primers (partitionByKey (fun r => r.amplicon) (raws.map ingestRow)) with
  | error e => rw [pipelineRun, hd] at h; cases h
  | ok dd =>
    have h1 : pipelineRun raws =
        (match resplice_primers dd with
          | .error e => .error e
          | .ok mf =>
            match finalize_primer_pairings mf with
            | .error e => .error e
            | .ok fin => .ok (sortRows fin)) := by
      rw [pipelineRun, hd]
    rw [h1] at h
    cases hrp : resplice_primers dd with
    | error e => rw [hrp] at h; cases h
    | ok mf =>
      have h2 : (match (Except.ok mf : Except Unit (List (List PRecord))) with
          | .error e => (.error e : Except Unit (List PRecord))
          | .ok mf =>
            match finalize_primer_pairings mf with
            | .error e => .error e
            | .ok fin => .ok (sortRows fin)) =
          (match finalize_primer_pairings mf with
            | .error e => (.error e : Except Unit (List PRecord))
            | .ok fin => .ok (sortRows fin)) := rfl
      rw [hrp, h2] at h
      cases hf : finalize_primer_pairings mf with
      | error e => rw [hf] at h; cases h
      | ok fin =>
        rw [hf] at h
        simp only [Except.ok.injEq] at h
        subst h
        have ho1 : o ∈ fin := mem_sortRows.mp ho
        have ho2 : o ∈ concatAll mf := by
          rw [finalize_primer_pairings] at hf
          split_ifs at hf
          simp only [Except.ok.injEq] at hf
          subst hf
          obtain ⟨gg, hgg, hogg⟩ := mem_of_concatAll ho1
          exact mem_concatAll hogg ((List.mem_filter.mp hgg).1)
        obtain ⟨s1, hs1, he1⟩ := resplice_orig dd mf hrp o ho2
        obtain ⟨s2, hs2, he2⟩ := dedup_primers_orig hd s1 hs1
        obtain ⟨gg2, hgg2, hsgg2⟩ := mem_of_concatAll hs2
        have hs3 : s2 ∈ raws.map ingestRow := mem_partition_sub hgg2 s2 hsgg2
        obtain ⟨raw, hraw, he3⟩ := List.mem_map.mp hs3
        refine ⟨raw, hraw, ?_⟩
        rw [he1, he2, ← he3]
        rfl

def wRaw1 : RawRow :=
  { ref := "chr1".data, startPos := 0, stopPos := 10,
    name := "AMP1_LEFT".data, idx := 1, sense := "+".data, gene := "g".data }

def wRaw2 : RawRow :=
  { ref := "chr1".data, startPos := 50, stopPos := 60,
    name := "AMP1_RIGHT".data, idx := 1, sense := "+".data, gene := "g".data }

/-- Witness for C8 at a concrete input: a two-row scheme flows through the
whole pipeline with the first output record's original name intact. -/
theorem claim_C8_witness :
    ∃ raw ∈ [wRaw1, wRaw2], (ingestRow wRaw1).origName = raw.name :=
  claim_C8 [wRaw1, wRaw2] [ingestRow wRaw1, ingestRow wRaw2] (by rfl)
    (ingestRow wRaw1) (by decide)

end Resplice

namespace Resplice

def exC3 : List (List PRecord) :=
  [[mkRec "X" 0, mkRec "X" 10, mkRec "Y" 20, mkRec "Y" 30]]

def exC3out : List (List PRecord) :=
  [[{ mkRec "X" 0 with name := "X-1".data },
    { mkRec "X" 10 with name := "X-2".data }],
   [{ mkRec "Y" 20 with name := "Y-3".data },
    { mkRec "Y" 30 with name := "Y-4".data }]]

/-- Counterexample for C3 as stated: with two distinct duplicated names in
one group, the first Y record would be renamed Y-1 under a per-name-group
rank, but the code numbers the whole duplicated subset, renaming it Y-3. -/
theorem claim_C3_counterexample :
    dedup_primers exC3 = .ok exC3out ∧
      { mkRec "Y" 20 with name := "Y-3".data } ∈ concatAll exC3out ∧
      { mkRec "Y" 20 with name := "Y-1".data } ∉ concatAll exC3out :=
  ⟨rfl, by decide, by decide⟩

end Resplice
